import Mathlib

/-!
Verification of the DOLFIN mesh topology/geometry kernel
(`TriangleCell.cpp`, `BoundaryComputation.cpp`, `Mesh.h`).

Coordinates are embedded as exact rationals; the C++ `double` arithmetic of
the geometric predicates under scrutiny is `+`, `-`, `*`, `/` and
comparisons, which we mirror over `ℚ`.  The square roots appearing in
`volume` (for a triangle embedded in R^3), `facet_area`, `diameter` and
`radius_ratio` are embedded over `ℝ` with `Real.sqrt`.
-/

namespace Dolfin

/-- A geometric point, mirroring `dolfin::Point` (three coordinates). -/
structure Pt where
  x : ℚ
  y : ℚ
  z : ℚ
deriving DecidableEq, Repr

namespace Pt

/-- Component-wise subtraction, `Point::operator-`. -/
def sub (a b : Pt) : Pt := ⟨a.x - b.x, a.y - b.y, a.z - b.z⟩

/-- Component-wise addition, `Point::operator+`. -/
def add (a b : Pt) : Pt := ⟨a.x + b.x, a.y + b.y, a.z + b.z⟩

/-- Scalar multiplication, `Point::operator*`. -/
def smul (r : ℚ) (a : Pt) : Pt := ⟨r * a.x, r * a.y, r * a.z⟩

/-- Inner product, `Point::dot`. -/
def dot (a b : Pt) : ℚ := a.x * b.x + a.y * b.y + a.z * b.z

/-- `Point::squared_distance`. -/
def sqDist (a b : Pt) : ℚ :=
  (a.x - b.x) ^ 2 + (a.y - b.y) ^ 2 + (a.z - b.z) ^ 2

/-- Cross product, `Point::cross`. -/
def cross (a b : Pt) : Pt :=
  ⟨a.y * b.z - a.z * b.y, a.z * b.x - a.x * b.z, a.x * b.y - a.y * b.x⟩

/-- Negation of a point (used to state normal-flip facts). -/
def neg (a : Pt) : Pt := ⟨-a.x, -a.y, -a.z⟩

theorem sqDist_nonneg (a b : Pt) : 0 ≤ sqDist a b := by
  unfold sqDist; positivity

theorem sqDist_eq_zero_iff (a b : Pt) : sqDist a b = 0 ↔ a = b := by
  unfold sqDist
  constructor
  · intro h
    have hx : a.x - b.x = 0 ∧ a.y - b.y = 0 ∧ a.z - b.z = 0 := by
      constructor
      · nlinarith [sq_nonneg (a.x - b.x), sq_nonneg (a.y - b.y), sq_nonneg (a.z - b.z)]
      constructor
      · nlinarith [sq_nonneg (a.x - b.x), sq_nonneg (a.y - b.y), sq_nonneg (a.z - b.z)]
      · nlinarith [sq_nonneg (a.x - b.x), sq_nonneg (a.y - b.y), sq_nonneg (a.z - b.z)]
    obtain ⟨h1, h2, h3⟩ := hx
    cases a; cases b
    simp only [Pt.mk.injEq]
    constructor
    · linarith
    constructor
    · linarith
    · linarith
  · intro h; subst h; ring

end Pt

/-- `TriangleCell::squared_distance(point, a, b, c)`
(TriangleCell.cpp lines 233-296): closest-point-on-triangle region analysis
from Ericson, "Real-time collision detection", Section 5.1.5.  Every branch
is reproduced verbatim; the divisions are exact rational divisions (`ℚ`
division by zero yields zero, but every division below is guarded by the
reachability conditions of its branch for non-degenerate triangles). -/
def squaredDistanceTri (point a b c : Pt) : ℚ :=
  let ab := b.sub a
  let ac := c.sub a
  let ap := point.sub a
  let d1 := ab.dot ap
  let d2 := ac.dot ap
  if d1 ≤ 0 ∧ d2 ≤ 0 then point.sqDist a
  else
    let bp := point.sub b
    let d3 := ab.dot bp
    let d4 := ac.dot bp
    if d3 ≥ 0 ∧ d4 ≤ d3 then point.sqDist b
    else
      let vc := d1 * d4 - d3 * d2
      if vc ≤ 0 ∧ d1 ≥ 0 ∧ d3 ≤ 0 then
        let v := d1 / (d1 - d3)
        point.sqDist (a.add (Pt.smul v ab))
      else
        let cp := point.sub c
        let d5 := ab.dot cp
        let d6 := ac.dot cp
        if d6 ≥ 0 ∧ d5 ≤ d6 then point.sqDist c
        else
          let vb := d5 * d2 - d1 * d6
          if vb ≤ 0 ∧ d2 ≥ 0 ∧ d6 ≤ 0 then
            let w := d2 / (d2 - d6)
            point.sqDist (a.add (Pt.smul w ac))
          else
            let va := d3 * d6 - d5 * d4
            if va ≤ 0 ∧ d4 - d3 ≥ 0 ∧ d5 - d6 ≥ 0 then
              let w := (d4 - d3) / ((d4 - d3) + (d5 - d6))
              point.sqDist (b.add (Pt.smul w (c.sub b)))
            else
              0

/-- Membership in the closed triangle with vertices `a`, `b`, `c`:
a convex combination `a + s·(b-a) + t·(c-a)` with `s, t ≥ 0`, `s + t ≤ 1`. -/
def InTriangle (q a b c : Pt) : Prop :=
  ∃ s t : ℚ, 0 ≤ s ∧ 0 ≤ t ∧ s + t ≤ 1 ∧
    q = (a.add (Pt.smul s (b.sub a))).add (Pt.smul t (c.sub a))

theorem inTriangle_z (q a b c : Pt) (ha : a.z = 0) (hb : b.z = 0) (hc : c.z = 0)
    (h : InTriangle q a b c) : q.z = 0 := by
  obtain ⟨s, t, _, _, _, hq⟩ := h
  have : q.z = a.z + s * (b.z - a.z) + t * (c.z - a.z) := by
    rw [hq]; simp [Pt.add, Pt.sub, Pt.smul]
  rw [this, ha, hb, hc]; ring



theorem squaredDistanceTri_nonneg_aux (point a b c : Pt) :
    0 ≤ squaredDistanceTri point a b c := by
  unfold squaredDistanceTri
  dsimp only
  split_ifs <;> first | exact Pt.sqDist_nonneg _ _ | norm_num

/-- C9: the value returned by `TriangleCell::squared_distance` is
nonnegative for all inputs: every branch of the region analysis returns
either a squared Euclidean distance or the literal `0`. -/
theorem squaredDistanceTri_nonneg (point a b c : Pt) :
    0 ≤ squaredDistanceTri point a b c :=
  squaredDistanceTri_nonneg_aux point a b c

/-!
Scalar optimality lemmas for the closest-point region analysis.

For fixed `p, a, b, c`, every point of the triangle is
`q(x, y) = a + x·(b-a) + y·(c-a)` with `x, y ≥ 0`, `x + y ≤ 1`, and
`|p - q(x, y)|² = F(x, y) = papp - 2·x·d1 - 2·y·d2 + Q(x, y)` where
`papp = |p-a|²`, `d1 = ab·ap`, `d2 = ac·ap`, and
`Q(x, y) = α·x² + 2·β·x·y + γ·y²` with `α = ab·ab`, `β = ab·ac`,
`γ = ac·ac`.  Each branch of the algorithm returns `F` at a specific
parameter pair; the lemmas below show that pair minimizes `F` over the
closed parameter simplex under the branch's guard conditions.
-/


/-- The squared distance `|p - q(x,y)|²` as a function of the barycentric
parameters, in scalar form. -/
def Ffun (al be ga d1 d2 papp x y : ℚ) : ℚ :=
  papp - 2*x*d1 - 2*y*d2 + (al*x^2 + 2*be*x*y + ga*y^2)

theorem Ffun_optA (al be ga d1 d2 papp sq tq : ℚ)
    (hQ : ∀ x y : ℚ, 0 ≤ al*x^2 + 2*be*x*y + ga*y^2)
    (h1 : d1 ≤ 0) (h2 : d2 ≤ 0) (hsq : 0 ≤ sq) (htq : 0 ≤ tq) :
    Ffun al be ga d1 d2 papp 0 0 ≤ Ffun al be ga d1 d2 papp sq tq := by
  have key : Ffun al be ga d1 d2 papp sq tq - Ffun al be ga d1 d2 papp 0 0
      = -2*sq*d1 - 2*tq*d2 + (al*sq^2 + 2*be*sq*tq + ga*tq^2) := by
    unfold Ffun; ring
  nlinarith [hQ sq tq, mul_nonneg hsq (neg_nonneg.mpr h1), mul_nonneg htq (neg_nonneg.mpr h2)]

theorem Ffun_optB (al be ga d1 d2 papp sq tq : ℚ)
    (hQ : ∀ x y : ℚ, 0 ≤ al*x^2 + 2*be*x*y + ga*y^2)
    (h3 : d1 - al ≥ 0) (h4 : d2 - be ≤ d1 - al)
    (hsq : 0 ≤ sq) (htq : 0 ≤ tq) (hsum : sq + tq ≤ 1) :
    Ffun al be ga d1 d2 papp 1 0 ≤ Ffun al be ga d1 d2 papp sq tq := by
  have key : Ffun al be ga d1 d2 papp sq tq - Ffun al be ga d1 d2 papp 1 0
      = 2*(1 - sq - tq)*(d1 - al) - 2*tq*((d2 - be) - (d1 - al))
        + (al*(1-sq)^2 + 2*be*(1-sq)*(-tq) + ga*(-tq)^2) := by
    unfold Ffun; ring
  nlinarith [hQ (1-sq) (-tq), mul_nonneg (by linarith : (0:ℚ) ≤ 1 - sq - tq) h3,
    mul_nonneg htq (by linarith : (0:ℚ) ≤ (d1 - al) - (d2 - be))]

theorem Ffun_optC (al be ga d1 d2 papp sq tq : ℚ)
    (hQ : ∀ x y : ℚ, 0 ≤ al*x^2 + 2*be*x*y + ga*y^2)
    (h6 : d2 - ga ≥ 0) (h5 : d1 - be ≤ d2 - ga)
    (hsq : 0 ≤ sq) (htq : 0 ≤ tq) (hsum : sq + tq ≤ 1) :
    Ffun al be ga d1 d2 papp 0 1 ≤ Ffun al be ga d1 d2 papp sq tq := by
  have key : Ffun al be ga d1 d2 papp sq tq - Ffun al be ga d1 d2 papp 0 1
      = 2*(1 - sq - tq)*(d2 - ga) - 2*sq*((d1 - be) - (d2 - ga))
        + (al*(-sq)^2 + 2*be*(-sq)*(1-tq) + ga*(1-tq)^2) := by
    unfold Ffun; ring
  nlinarith [hQ (-sq) (1-tq), mul_nonneg (by linarith : (0:ℚ) ≤ 1 - sq - tq) h6,
    mul_nonneg hsq (by linarith : (0:ℚ) ≤ (d2 - ga) - (d1 - be))]

theorem nonneg_of_mul_nonneg_left (a x : ℚ) (h : 0 ≤ a * x) (ha : 0 < a) : 0 ≤ x := by
  by_contra hcon
  push_neg at hcon
  nlinarith [mul_pos ha (neg_pos.mpr hcon)]

theorem nonpos_of_mul_nonpos_left (a x : ℚ) (h : a * x ≤ 0) (ha : 0 < a) : x ≤ 0 := by
  by_contra hcon
  push_neg at hcon
  nlinarith [mul_pos ha hcon]

theorem Ffun_optAB (al be ga d1 d2 papp sq tq v : ℚ)
    (hQ : ∀ x y : ℚ, 0 ≤ al*x^2 + 2*be*x*y + ga*y^2)
    (hal : 0 < al) (hv : d1 = al * v) (hvc : al*d2 - be*d1 ≤ 0)
    (hsq : 0 ≤ sq) (htq : 0 ≤ tq) :
    Ffun al be ga d1 d2 papp v 0 ≤ Ffun al be ga d1 d2 papp sq tq := by
  subst hv
  have hproj : d2 - v*be ≤ 0 := by
    refine nonpos_of_mul_nonpos_left al _ ?_ hal
    nlinarith
  have key : Ffun al be ga (al*v) d2 papp sq tq - Ffun al be ga (al*v) d2 papp v 0
      = (al*(v-sq)^2 + 2*be*(v-sq)*(-tq) + ga*(-tq)^2) - 2*tq*(d2 - v*be) := by
    unfold Ffun; ring
  nlinarith [hQ (v-sq) (-tq), mul_nonneg htq (neg_nonneg.mpr hproj)]

theorem Ffun_optAC (al be ga d1 d2 papp sq tq w : ℚ)
    (hQ : ∀ x y : ℚ, 0 ≤ al*x^2 + 2*be*x*y + ga*y^2)
    (hga : 0 < ga) (hw : d2 = ga * w) (hvb : ga*d1 - be*d2 ≤ 0)
    (hsq : 0 ≤ sq) (htq : 0 ≤ tq) :
    Ffun al be ga d1 d2 papp 0 w ≤ Ffun al be ga d1 d2 papp sq tq := by
  subst hw
  have hproj : d1 - w*be ≤ 0 := by
    refine nonpos_of_mul_nonpos_left ga _ ?_ hga
    nlinarith
  have key : Ffun al be ga d1 (ga*w) papp sq tq - Ffun al be ga d1 (ga*w) papp 0 w
      = (al*(-sq)^2 + 2*be*(-sq)*(w-tq) + ga*(w-tq)^2) - 2*sq*(d1 - w*be) := by
    unfold Ffun; ring
  nlinarith [hQ (-sq) (w-tq), mul_nonneg hsq (neg_nonneg.mpr hproj)]

theorem Ffun_optBC (al be ga d1 d2 papp sq tq w : ℚ)
    (hQ : ∀ x y : ℚ, 0 ≤ al*x^2 + 2*be*x*y + ga*y^2)
    (hdel : 0 < al - 2*be + ga)
    (hw : d2 = d1 - al + be + (al - 2*be + ga) * w)
    (hva : (d1 - al)*(d2 - ga) - (d1 - be)*(d2 - be) ≤ 0)
    (hsq : 0 ≤ sq) (htq : 0 ≤ tq) (hsum : sq + tq ≤ 1) :
    Ffun al be ga d1 d2 papp (1-w) w ≤ Ffun al be ga d1 d2 papp sq tq := by
  subst hw
  have hproj : 0 ≤ (d1 - al) - w*(be - al) := by
    refine nonneg_of_mul_nonneg_left (al - 2*be + ga) _ ?_ hdel
    nlinarith
  have key : Ffun al be ga d1 (d1 - al + be + (al - 2*be + ga) * w) papp sq tq
      - Ffun al be ga d1 (d1 - al + be + (al - 2*be + ga) * w) papp (1-w) w
      = (al*(1-sq-w)^2 + 2*be*(1-sq-w)*(w-tq) + ga*(w-tq)^2)
        + 2*(1 - sq - tq)*((d1 - al) - w*(be - al)) := by
    unfold Ffun; ring
  nlinarith [hQ (1-sq-w) (w-tq), mul_nonneg (by linarith : (0:ℚ) ≤ 1 - sq - tq) hproj]



/-!
Fall-through analysis: if none of the six region guards of the algorithm
fires, the query point lies in the closed triangle.  Stated over the scalar
data `d1 = s·α + t·β`, `d2 = s·β + t·γ` induced by the plane decomposition
`p - a = s·ab + t·ac`, using the identities `vc = t·D`, `vb = s·D`,
`va = (1-s-t)·D` with `D = αγ - β²` the Gram determinant.
-/

theorem regionFallThrough_t (al be ga s t D d1 d2 e1 e2 sg : ℚ)
    (hal : 0 < al) (hga : 0 < ga) (hD : 0 < D)
    (hDval : D = al*ga - be^2)
    (hd1 : d1 = s*al + t*be) (hd2 : d2 = s*be + t*ga)
    (he1 : e1 = (d2 - be) - (d1 - al)) (he2 : e2 = (d1 - be) - (d2 - ga))
    (hsg : sg = 1 - s - t)
    (G1 : ¬ (d1 ≤ 0 ∧ d2 ≤ 0))
    (G2 : ¬ (d1 - al ≥ 0 ∧ d2 - be ≤ d1 - al))
    (G3 : ¬ (t*D ≤ 0 ∧ d1 ≥ 0 ∧ d1 - al ≤ 0))
    (G4 : ¬ (d2 - ga ≥ 0 ∧ d1 - be ≤ d2 - ga))
    (G5 : ¬ (s*D ≤ 0 ∧ d2 ≥ 0 ∧ d2 - ga ≤ 0))
    (G6 : ¬ (sg*D ≤ 0 ∧ e1 ≥ 0 ∧ e2 ≥ 0)) :
    0 ≤ t := by
  have hDq : 0 < al*ga - be^2 := by rw [hDval] at hD; exact hD
  by_contra ht
  push_neg at ht
  have htD : t*D < 0 := mul_neg_of_neg_of_pos ht hD
  have hcase : d1 < 0 ∨ 0 < d1 - al := by
    by_contra hc; push_neg at hc
    exact G3 ⟨le_of_lt htD, hc.1, hc.2⟩
  rcases hcase with hd1neg | hd3pos
  · -- vertex-A side: d1 < 0
    have hd2pos : 0 < d2 := by
      by_contra hc; push_neg at hc
      exact G1 ⟨le_of_lt hd1neg, hc⟩
    have hI : 0 < s*D ∨ 0 < d2 - ga := by
      by_contra hc; push_neg at hc
      exact G5 ⟨hc.1, le_of_lt hd2pos, hc.2⟩
    rcases hI with hsD | hd6pos
    · have hspos : 0 < s := by
        by_contra hc; push_neg at hc
        linarith [mul_nonpos_of_nonpos_of_nonneg hc (le_of_lt hD)]
      rcases le_or_lt 0 be with hbe | hbe
      · have heq : t*D = al*d2 - be*d1 := by rw [hDval, hd1, hd2]; ring
        linarith [heq, mul_pos hal hd2pos,
                  mul_nonneg hbe (le_of_lt (neg_pos.mpr hd1neg))]
      · have hneg : d2 < 0 := by
          rw [hd2]
          linarith [mul_pos hspos (neg_pos.mpr hbe), mul_pos (neg_pos.mpr ht) hga]
        linarith
    · have hd5 : d2 - ga < d1 - be := by
        by_contra hc; push_neg at hc
        exact G4 ⟨le_of_lt hd6pos, hc⟩
      rcases lt_trichotomy be 0 with hbe | hbe | hbe
      · have hA : 0 < s*be - (1-t)*ga := by
          rw [hd2] at hd6pos; linarith
        have hB : 0 < s*(al-be) + (1-t)*(ga-be) := by
          rw [hd1, hd2] at hd5; linarith
        linarith [mul_pos hA (by linarith : (0:ℚ) < al - be),
                  mul_pos hB (neg_pos.mpr hbe),
                  mul_pos (by linarith : (0:ℚ) < 1 - t) hDq]
      · rw [hbe] at hd2; rw [hd2] at hd6pos
        linarith [mul_pos (by linarith : (0:ℚ) < 1 - t) hga]
      · have hsbe : (1-t)*ga < s*be := by
          rw [hd2] at hd6pos; linarith
        have hspos : 0 < s := by
          by_contra hc; push_neg at hc
          linarith [mul_nonneg (neg_nonneg.mpr hc) (le_of_lt hbe),
                    mul_pos (by linarith : (0:ℚ) < 1 - t) hga]
        have h1 : s*al + t*be < 0 := by rw [hd1] at hd1neg; exact hd1neg
        linarith [mul_lt_mul_of_pos_right h1 hbe,
                  mul_pos (neg_pos.mpr ht) hDq,
                  mul_lt_mul_of_pos_right hsbe hal,
                  mul_pos hal hga]
  · -- vertex-B side: d3 > 0
    have he1pos : 0 < e1 := by
      by_contra hc; push_neg at hc
      exact G2 ⟨le_of_lt hd3pos, by rw [he1] at hc; linarith⟩
    have hII : 0 < sg*D ∨ e2 < 0 := by
      by_contra hc; push_neg at hc
      exact G6 ⟨hc.1, le_of_lt he1pos, hc.2⟩
    rcases hII with hvapos | he2neg
    · have hsum : s + t < 1 := by
        by_contra hc; push_neg at hc
        have hsgn : sg ≤ 0 := by rw [hsg]; linarith
        linarith [mul_nonpos_of_nonpos_of_nonneg hsgn (le_of_lt hD)]
      rcases lt_or_le s 1 with hs1 | hs1
      · have htbe : (1-s)*al < t*be := by
          rw [hd1] at hd3pos; linarith
        have hbe : be < 0 := by
          rcases le_or_lt 0 be with h | h
          · exfalso
            linarith [mul_pos (by linarith : (0:ℚ) < 1 - s) hal,
                      mul_nonpos_of_nonpos_of_nonneg (le_of_lt ht) h]
          · exact h
        have key : al*e1 - t*D = ((1-s)*al - t*be)*(al - be) := by
          rw [he1, hd1, hd2, hDval]; ring
        linarith [key, htD, mul_pos hal he1pos,
                  mul_neg_of_neg_of_pos (by linarith : (1-s)*al - t*be < 0)
                    (by linarith : (0:ℚ) < al - be)]
      · have hT : 0 < -t := by linarith
        have hTu : s - 1 < -t := by linarith
        have hiii : 0 < (s-1)*al + t*be := by
          have hx : d1 - al = (s-1)*al + t*be := by rw [hd1]; ring
          linarith [hd3pos]
        have hiv : (s-1)*(al-be) + (-t)*(ga-be) < 0 := by
          have hx : e1 = -((s-1)*(al-be) + (-t)*(ga-be)) := by
            rw [he1, hd1, hd2]; ring
          linarith [he1pos]
        have hv : (-t)*ga < (s-1)*be := by linarith [hiii, hiv]
        have hupos : 0 < s - 1 := by
          rcases eq_or_lt_of_le (by linarith : (0:ℚ) ≤ s - 1) with h | h
          · exfalso
            have hz : (-t)*ga < 0 := by
              have hv2 := hv
              rw [← h] at hv2
              simpa using hv2
            linarith [mul_pos hT hga]
          · exact h
        have hbepos : 0 < be := by
          by_contra hc; push_neg at hc
          linarith [mul_pos hT hga,
                    mul_nonpos_of_nonneg_of_nonpos (le_of_lt hupos) hc]
        have hvii : (s-1)*be*(be-ga) < (-t)*ga*(be-ga) := by
          have hiv2 : (s-1)*al < (s-1)*be + (-t)*be - (-t)*ga := by linarith [hiv]
          have m1 : (s-1)*al*ga < ((s-1)*be + (-t)*be - (-t)*ga)*ga :=
            mul_lt_mul_of_pos_right hiv2 hga
          have m2 : (s-1)*be^2 < (s-1)*al*ga := by
            linarith [mul_pos hupos hDq]
          nlinarith [m1, m2]
        rcases lt_trichotomy be ga with hbg | hbg | hbg
        · linarith [mul_lt_mul_of_pos_right hTu hbepos,
                    mul_lt_mul_of_pos_left hbg hT, hv]
        · rw [hbg] at hvii
          simp at hvii
        · linarith [mul_lt_mul_of_pos_right hv (sub_pos.mpr hbg), hvii]
    · have hd6neg : d2 - ga < 0 := by
        by_contra hc; push_neg at hc
        exact G4 ⟨hc, by rw [he2] at he2neg; linarith⟩
      have hd5neg : d1 - be < d2 - ga := by rw [he2] at he2neg; linarith
      have hba : al < be := by linarith [hd3pos, hd5neg, hd6neg]
      have heq : t*D = al*d2 - be*d1 := by rw [hDval, hd1, hd2]; ring
      have h1 : al*d2 < be*d1 := by linarith [htD, heq]
      have h2 : d1 + ga - be < d2 := by linarith [hd5neg]
      have h3 : al*(ga - be) < d1*(be - al) := by
        linarith [mul_lt_mul_of_pos_left h2 hal, h1]
      have h4 : be*(be - al) < al*(ga - be) := by linarith [hDq]
      linarith [h3, h4,
        mul_pos (sub_pos.mpr hba) (by linarith : (0:ℚ) < be - d1)]

theorem regionFallThrough_s (al be ga s t D d1 d2 e1 e2 sg : ℚ)
    (hal : 0 < al) (hga : 0 < ga) (hD : 0 < D)
    (hDval : D = al*ga - be^2)
    (hd1 : d1 = s*al + t*be) (hd2 : d2 = s*be + t*ga)
    (he1 : e1 = (d2 - be) - (d1 - al)) (he2 : e2 = (d1 - be) - (d2 - ga))
    (hsg : sg = 1 - s - t)
    (G1 : ¬ (d1 ≤ 0 ∧ d2 ≤ 0))
    (G2 : ¬ (d1 - al ≥ 0 ∧ d2 - be ≤ d1 - al))
    (G3 : ¬ (t*D ≤ 0 ∧ d1 ≥ 0 ∧ d1 - al ≤ 0))
    (G4 : ¬ (d2 - ga ≥ 0 ∧ d1 - be ≤ d2 - ga))
    (G5 : ¬ (s*D ≤ 0 ∧ d2 ≥ 0 ∧ d2 - ga ≤ 0))
    (G6 : ¬ (sg*D ≤ 0 ∧ e1 ≥ 0 ∧ e2 ≥ 0)) :
    0 ≤ s := by
  refine regionFallThrough_t ga be al t s D d2 d1 e2 e1 sg hga hal hD
    (by rw [hDval]; ring) (by rw [hd2]; ring) (by rw [hd1]; ring)
    he2 he1 (by rw [hsg]; ring)
    (fun h => G1 ⟨h.2, h.1⟩) G4 G5 G2 G3
    (fun h => G6 ⟨h.1, h.2.2, h.2.1⟩)

theorem fallSumCore (al be ga s t : ℚ)
    (hal : 0 < al) (hga : 0 < ga) (hDq : 0 < al*ga - be^2)
    (hs : 0 ≤ s) (ht : 0 ≤ t) (hsum : 1 < s + t)
    (hd3 : s*al + t*be - al < 0)
    (he1 : (s*be + t*ga - be) - (s*al + t*be - al) < 0) : False := by
  have hd4 : s*be + t*ga - be < 0 := by linarith
  rcases eq_or_lt_of_le ht with h0 | htpos
  · rw [← h0] at hd3 hsum
    have hs1 : 1 < s := by linarith
    have : 0 < (s - 1)*al := mul_pos (by linarith) hal
    linarith
  · rcases lt_or_le s 1 with hs1 | hs1
    · have hbe : 0 < be := by
        by_contra hc; push_neg at hc
        linarith [mul_nonneg (by linarith : (0:ℚ) ≤ 1 - s) (by linarith : (0:ℚ) ≤ -be),
                  mul_pos htpos hga]
      have hbg : ga < be := by
        by_contra hc; push_neg at hc
        linarith [mul_le_mul_of_nonneg_left hc (by linarith : (0:ℚ) ≤ 1 - s),
                  mul_lt_mul_of_pos_right (by linarith : 1 - s < t) hga]
      have k1 : ((1-s)*(al-be))*ga < (t*(be-ga))*ga := by
        refine mul_lt_mul_of_pos_right ?_ hga
        linarith
      have k2 : (t*ga)*(be-ga) < ((1-s)*be)*(be-ga) := by
        refine mul_lt_mul_of_pos_right ?_ (by linarith : (0:ℚ) < be - ga)
        linarith
      linarith [k1, k2, mul_pos (by linarith : (0:ℚ) < 1 - s) hDq]
    · have hbe : be < 0 := by
        by_contra hc; push_neg at hc
        linarith [mul_nonneg (by linarith : (0:ℚ) ≤ s - 1) (le_of_lt hal),
                  mul_nonneg (le_of_lt htpos) hc]
      have hupos : 0 < s - 1 := by
        rcases eq_or_lt_of_le hs1 with h | h
        · exfalso
          rw [← h] at hd4
          linarith [mul_pos htpos hga]
        · linarith
      have p1 : (s-1)*al < t*(-be) := by linarith
      have p2 : t*ga < (s-1)*(-be) := by linarith
      have k1 : ((s-1)*al)*ga < (t*(-be))*ga := mul_lt_mul_of_pos_right p1 hga
      have k2 : (t*ga)*(-be) < ((s-1)*(-be))*(-be) :=
        mul_lt_mul_of_pos_right p2 (by linarith : (0:ℚ) < -be)
      linarith [k1, k2, mul_pos hupos hDq]

theorem regionFallThrough_sum (al be ga s t D d1 d2 e1 e2 sg : ℚ)
    (hal : 0 < al) (hga : 0 < ga) (hD : 0 < D)
    (hDval : D = al*ga - be^2)
    (hd1 : d1 = s*al + t*be) (hd2 : d2 = s*be + t*ga)
    (he1 : e1 = (d2 - be) - (d1 - al)) (he2 : e2 = (d1 - be) - (d2 - ga))
    (hsg : sg = 1 - s - t)
    (G2 : ¬ (d1 - al ≥ 0 ∧ d2 - be ≤ d1 - al))
    (G4 : ¬ (d2 - ga ≥ 0 ∧ d1 - be ≤ d2 - ga))
    (G6 : ¬ (sg*D ≤ 0 ∧ e1 ≥ 0 ∧ e2 ≥ 0))
    (hs : 0 ≤ s) (ht : 0 ≤ t) :
    s + t ≤ 1 := by
  have hDq : 0 < al*ga - be^2 := by rw [hDval] at hD; exact hD
  by_contra hc
  push_neg at hc
  have hsgD : sg*D ≤ 0 := by
    rw [hsg]
    exact mul_nonpos_of_nonpos_of_nonneg (by linarith) (le_of_lt hD)
  have hE : e1 < 0 ∨ e2 < 0 := by
    by_contra hc2; push_neg at hc2
    exact G6 ⟨hsgD, hc2.1, hc2.2⟩
  rcases hE with h | h
  · have hd3 : d1 - al < 0 := by
      by_contra hc2; push_neg at hc2
      exact G2 ⟨hc2, by rw [he1] at h; linarith⟩
    refine fallSumCore al be ga s t hal hga hDq hs ht hc ?_ ?_
    · rw [hd1] at hd3; linarith
    · rw [he1, hd1, hd2] at h; linarith
  · have hd6 : d2 - ga < 0 := by
      by_contra hc2; push_neg at hc2
      exact G4 ⟨hc2, by rw [he2] at h; linarith⟩
    refine fallSumCore ga be al t s hga hal (by linarith [hDq]) ht hs (by linarith) ?_ ?_
    · rw [hd2] at hd6; linarith
    · rw [he2, hd1, hd2] at h; linarith

theorem Pt.ext_xyz (u v : Pt) (hx : u.x = v.x) (hy : u.y = v.y) (hz : u.z = v.z) :
    u = v := by
  cases u; cases v; simp_all

theorem plane_rep (p a b c : Pt)
    (hpz : p.z = 0) (haz : a.z = 0) (hbz : b.z = 0) (hcz : c.z = 0)
    (hDz : (b.sub a).x * (c.sub a).y - (b.sub a).y * (c.sub a).x ≠ 0) :
    ∃ s t : ℚ, p = (a.add (Pt.smul s (b.sub a))).add (Pt.smul t (c.sub a)) := by
  obtain ⟨px, py, pz⟩ := p
  obtain ⟨ax, ay, az⟩ := a
  obtain ⟨bx, bb, bz⟩ := b
  obtain ⟨cx, cy, cz⟩ := c
  simp only [Pt.sub] at hDz
  dsimp only at hpz haz hbz hcz hDz
  subst hpz haz hbz hcz
  refine ⟨((px - ax) * (cy - ay) - (py - ay) * (cx - ax))
            / ((bx - ax) * (cy - ay) - (bb - ay) * (cx - ax)),
          ((bx - ax) * (py - ay) - (bb - ay) * (px - ax))
            / ((bx - ax) * (cy - ay) - (bb - ay) * (cx - ax)), ?_⟩
  simp only [Pt.add, Pt.smul, Pt.sub, Pt.mk.injEq]
  refine ⟨?_, ?_, by ring⟩
  · field_simp
    ring
  · field_simp
    ring

theorem squaredDistanceTri_min (p a b c : Pt)
    (hpz : p.z = 0) (haz : a.z = 0) (hbz : b.z = 0) (hcz : c.z = 0)
    (hDz : (b.sub a).x * (c.sub a).y - (b.sub a).y * (c.sub a).x ≠ 0) :
    (∀ q, InTriangle q a b c → squaredDistanceTri p a b c ≤ p.sqDist q) ∧
    (∃ q, InTriangle q a b c ∧ squaredDistanceTri p a b c = p.sqDist q) := by
  obtain ⟨s, t, hp⟩ := plane_rep p a b c hpz haz hbz hcz hDz
  unfold squaredDistanceTri
  dsimp only
  set al := (b.sub a).dot (b.sub a) with hal_def
  set be := (b.sub a).dot (c.sub a) with hbe_def
  set ga := (c.sub a).dot (c.sub a) with hga_def
  set d1 := (b.sub a).dot (p.sub a) with hd1_def
  set d2 := (c.sub a).dot (p.sub a) with hd2_def
  set d3 := (b.sub a).dot (p.sub b) with hd3_def
  set d4 := (c.sub a).dot (p.sub b) with hd4_def
  set d5 := (b.sub a).dot (p.sub c) with hd5_def
  set d6 := (c.sub a).dot (p.sub c) with hd6_def
  -- relations among the scalar quantities
  have e3 : d3 = d1 - al := by
    rw [hd3_def, hd1_def, hal_def]; simp only [Pt.dot, Pt.sub]; ring
  have e4 : d4 = d2 - be := by
    rw [hd4_def, hd2_def, hbe_def]; simp only [Pt.dot, Pt.sub]; ring
  have e5 : d5 = d1 - be := by
    rw [hd5_def, hd1_def, hbe_def]; simp only [Pt.dot, Pt.sub]; ring
  have e6 : d6 = d2 - ga := by
    rw [hd6_def, hd2_def, hga_def]; simp only [Pt.dot, Pt.sub]; ring
  have hQ : ∀ x y : ℚ, 0 ≤ al*x^2 + 2*be*x*y + ga*y^2 := by
    intro x y
    have hxy : al*x^2 + 2*be*x*y + ga*y^2
        = (x*(b.sub a).x + y*(c.sub a).x)^2 + (x*(b.sub a).y + y*(c.sub a).y)^2
          + (x*(b.sub a).z + y*(c.sub a).z)^2 := by
      rw [hal_def, hbe_def, hga_def]; simp only [Pt.dot]; ring
    rw [hxy]; positivity
  have hcombo : ∀ x y : ℚ,
      p.sqDist ((a.add (Pt.smul x (b.sub a))).add (Pt.smul y (c.sub a)))
        = Ffun al be ga d1 d2 (p.sqDist a) x y := by
    intro x y
    rw [hal_def, hbe_def, hga_def, hd1_def, hd2_def]
    simp only [Ffun, Pt.sqDist, Pt.dot, Pt.sub, Pt.add, Pt.smul]
    ring
  have hcomboAB : ∀ v : ℚ, p.sqDist (a.add (Pt.smul v (b.sub a)))
      = Ffun al be ga d1 d2 (p.sqDist a) v 0 := by
    intro v
    rw [hal_def, hbe_def, hga_def, hd1_def, hd2_def]
    simp only [Ffun, Pt.sqDist, Pt.dot, Pt.sub, Pt.add, Pt.smul]
    ring
  have hcomboAC : ∀ w : ℚ, p.sqDist (a.add (Pt.smul w (c.sub a)))
      = Ffun al be ga d1 d2 (p.sqDist a) 0 w := by
    intro w
    rw [hal_def, hbe_def, hga_def, hd1_def, hd2_def]
    simp only [Ffun, Pt.sqDist, Pt.dot, Pt.sub, Pt.add, Pt.smul]
    ring
  have hcomboBC : ∀ w : ℚ, p.sqDist (b.add (Pt.smul w (c.sub b)))
      = Ffun al be ga d1 d2 (p.sqDist a) (1-w) w := by
    intro w
    rw [hal_def, hbe_def, hga_def, hd1_def, hd2_def]
    simp only [Ffun, Pt.sqDist, Pt.dot, Pt.sub, Pt.add, Pt.smul]
    ring
  have hvalA : p.sqDist a = Ffun al be ga d1 d2 (p.sqDist a) 0 0 := by
    simp only [Ffun]; ring
  have hvalB : p.sqDist b = Ffun al be ga d1 d2 (p.sqDist a) 1 0 := by
    rw [hal_def, hd1_def]
    simp only [Ffun, Pt.sqDist, Pt.dot, Pt.sub]
    ring
  have hvalC : p.sqDist c = Ffun al be ga d1 d2 (p.sqDist a) 0 1 := by
    rw [hga_def, hd2_def]
    simp only [Ffun, Pt.sqDist, Pt.dot, Pt.sub]
    ring
  have habz : (b.sub a).z = 0 := by simp [Pt.sub, haz, hbz]
  have hacz : (c.sub a).z = 0 := by simp [Pt.sub, haz, hcz]
  have hDq : 0 < al*ga - be^2 := by
    have hlag : al*ga - be^2
        = ((b.sub a).x * (c.sub a).y - (b.sub a).y * (c.sub a).x)^2 := by
      rw [hal_def, hbe_def, hga_def]
      simp only [Pt.dot]
      rw [habz, hacz]
      ring
    rw [hlag]
    exact lt_of_le_of_ne (sq_nonneg _) (Ne.symm (pow_ne_zero 2 hDz))
  have hal_nonneg : 0 ≤ al := by
    have hexp : al = (b.sub a).x^2 + (b.sub a).y^2 + (b.sub a).z^2 := by
      rw [hal_def]; simp only [Pt.dot]; ring
    rw [hexp]; positivity
  have hga_nonneg : 0 ≤ ga := by
    have hexp : ga = (c.sub a).x^2 + (c.sub a).y^2 + (c.sub a).z^2 := by
      rw [hga_def]; simp only [Pt.dot]; ring
    rw [hexp]; positivity
  have halga : 0 < al*ga := by nlinarith [hDq, sq_nonneg be]
  have hal : 0 < al := by
    rcases eq_or_lt_of_le hal_nonneg with h | h
    · exfalso; rw [← h] at halga; simp at halga
    · exact h
  have hga : 0 < ga := by
    rcases eq_or_lt_of_le hga_nonneg with h | h
    · exfalso; rw [← h] at halga; simp at halga
    · exact h
  have hd1 : d1 = s*al + t*be := by
    rw [hd1_def]
    conv_lhs => rw [hp]
    rw [hal_def, hbe_def]
    simp only [Pt.dot, Pt.sub, Pt.add, Pt.smul]
    ring
  have hd2 : d2 = s*be + t*ga := by
    rw [hd2_def]
    conv_lhs => rw [hp]
    rw [hbe_def, hga_def]
    simp only [Pt.dot, Pt.sub, Pt.add, Pt.smul]
    ring
  clear_value al be ga d1 d2 d3 d4 d5 d6
  clear hal_def hbe_def hga_def hd1_def hd2_def hd3_def hd4_def hd5_def hd6_def
  split_ifs with h1 h2 h3 h4 h5 h6
  · -- vertex region A
    constructor
    · rintro q ⟨sq, tq, hsq, htq, hsm, rfl⟩
      have hopt := Ffun_optA al be ga d1 d2 (p.sqDist a) sq tq hQ h1.1 h1.2 hsq htq
      rw [← hvalA] at hopt
      rw [hcombo sq tq]
      exact hopt
    · refine ⟨_, ⟨0, 0, le_refl 0, le_refl 0, by norm_num, rfl⟩, ?_⟩
      rw [hcombo 0 0]
      exact hvalA
  · -- vertex region B
    obtain ⟨hg1, hg2⟩ := h2
    rw [e3] at hg1
    rw [e3, e4] at hg2
    constructor
    · rintro q ⟨sq, tq, hsq, htq, hsm, rfl⟩
      rw [hcombo sq tq, hvalB]
      exact Ffun_optB al be ga d1 d2 _ sq tq hQ hg1 hg2 hsq htq hsm
    · refine ⟨_, ⟨1, 0, by norm_num, le_refl 0, by norm_num, rfl⟩, ?_⟩
      rw [hcombo 1 0]
      exact hvalB
  · -- edge region AB
    obtain ⟨hg1, hg2, hg3⟩ := h3
    rw [e3, e4] at hg1
    rw [e3] at hg3
    have hvc : al*d2 - be*d1 ≤ 0 := by linarith [hg1]
    have hdenom : d1 - d3 = al := by rw [e3]; ring
    have hveq : d1 / (d1 - d3) = d1 / al := by rw [hdenom]
    have hv : d1 = al * (d1 / al) := by
      field_simp
    constructor
    · rintro q ⟨sq, tq, hsq, htq, hsm, rfl⟩
      rw [hcombo sq tq, hcomboAB (d1 / (d1 - d3)), hveq]
      exact Ffun_optAB al be ga d1 d2 _ sq tq (d1/al) hQ hal hv hvc hsq htq
    · have h0v : 0 ≤ d1/al := div_nonneg hg2 (le_of_lt hal)
      have h1v : d1/al ≤ 1 := by
        rw [div_le_one hal]; linarith
      refine ⟨_, ⟨d1/al, 0, h0v, le_refl 0, by linarith, rfl⟩, ?_⟩
      rw [hcombo (d1/al) 0, hcomboAB (d1 / (d1 - d3)), hveq]
  · -- vertex region C
    obtain ⟨hg1, hg2⟩ := h4
    rw [e6] at hg1
    rw [e5, e6] at hg2
    constructor
    · rintro q ⟨sq, tq, hsq, htq, hsm, rfl⟩
      rw [hcombo sq tq, hvalC]
      exact Ffun_optC al be ga d1 d2 _ sq tq hQ hg1 hg2 hsq htq hsm
    · refine ⟨_, ⟨0, 1, le_refl 0, by norm_num, by norm_num, rfl⟩, ?_⟩
      rw [hcombo 0 1]
      exact hvalC
  · -- edge region AC
    obtain ⟨hg1, hg2, hg3⟩ := h5
    rw [e5, e6] at hg1
    rw [e6] at hg3
    have hvb : ga*d1 - be*d2 ≤ 0 := by linarith [hg1]
    have hdenom : d2 - d6 = ga := by rw [e6]; ring
    have hweq : d2 / (d2 - d6) = d2 / ga := by rw [hdenom]
    have hw : d2 = ga * (d2 / ga) := by
      field_simp
    constructor
    · rintro q ⟨sq, tq, hsq, htq, hsm, rfl⟩
      rw [hcombo sq tq, hcomboAC (d2 / (d2 - d6)), hweq]
      exact Ffun_optAC al be ga d1 d2 _ sq tq (d2/ga) hQ hga hw hvb hsq htq
    · have h0w : 0 ≤ d2/ga := div_nonneg hg2 (le_of_lt hga)
      have h1w : d2/ga ≤ 1 := by
        rw [div_le_one hga]; linarith
      refine ⟨_, ⟨0, d2/ga, le_refl 0, h0w, by linarith, rfl⟩, ?_⟩
      rw [hcombo 0 (d2/ga), hcomboAC (d2 / (d2 - d6)), hweq]
  · -- edge region BC
    obtain ⟨hg1, hg2, hg3⟩ := h6
    rw [e3, e4, e5, e6] at hg1
    have hdelta : 0 < al - 2*be + ga := by
      by_contra hcon
      push_neg at hcon
      have hkey : al*(al - 2*be + ga) = (al - be)^2 + (al*ga - be^2) := by ring
      have hnonpos : al*(al - 2*be + ga) ≤ 0 :=
        mul_nonpos_of_nonneg_of_nonpos (le_of_lt hal) hcon
      linarith [sq_nonneg (al - be), hDq, hkey, hnonpos]
    have hden : d4 - d3 + (d5 - d6) = al - 2*be + ga := by
      rw [e3, e4, e5, e6]; ring
    have hnum : d4 - d3 = (d2 - be) - (d1 - al) := by rw [e3, e4]
    have hw : d2 = d1 - al + be
        + (al - 2*be + ga) * ((d4 - d3) / (d4 - d3 + (d5 - d6))) := by
      rw [hden, hnum]
      field_simp
      ring
    constructor
    · rintro q ⟨sq, tq, hsq, htq, hsm, rfl⟩
      rw [hcombo sq tq, hcomboBC ((d4 - d3) / (d4 - d3 + (d5 - d6)))]
      exact Ffun_optBC al be ga d1 d2 _ sq tq _ hQ hdelta hw hg1 hsq htq hsm
    · have h0w : 0 ≤ (d4 - d3) / (d4 - d3 + (d5 - d6)) := by
        apply div_nonneg hg2
        rw [hden]; exact le_of_lt hdelta
      have h1w : (d4 - d3) / (d4 - d3 + (d5 - d6)) ≤ 1 := by
        rw [div_le_one (by rw [hden]; exact hdelta)]
        linarith
      refine ⟨_, ⟨1 - (d4 - d3) / (d4 - d3 + (d5 - d6)),
        (d4 - d3) / (d4 - d3 + (d5 - d6)), by linarith, h0w, by linarith, rfl⟩, ?_⟩
      rw [hcombo (1 - (d4 - d3) / (d4 - d3 + (d5 - d6))) ((d4 - d3) / (d4 - d3 + (d5 - d6))),
          hcomboBC ((d4 - d3) / (d4 - d3 + (d5 - d6)))]
  · -- fall-through: the query point lies in the closed triangle
    rw [e3, e4] at h2 h3
    rw [e5, e6] at h4 h5
    rw [e3, e4, e5, e6] at h6
    have hvcid : d1*(d2 - be) - (d1 - al)*d2 = t*(al*ga - be^2) := by
      rw [hd1, hd2]; ring
    have hvbid : (d1 - be)*d2 - d1*(d2 - ga) = s*(al*ga - be^2) := by
      rw [hd1, hd2]; ring
    have hvaid : (d1 - al)*(d2 - ga) - (d1 - be)*(d2 - be)
        = (1 - s - t)*(al*ga - be^2) := by
      rw [hd1, hd2]; ring
    rw [hvcid] at h3
    rw [hvbid] at h5
    rw [hvaid] at h6
    have hs0 : 0 ≤ s := regionFallThrough_s al be ga s t (al*ga - be^2) d1 d2
      ((d2 - be) - (d1 - al)) ((d1 - be) - (d2 - ga)) (1 - s - t)
      hal hga hDq rfl hd1 hd2 rfl rfl rfl h1 h2 h3 h4 h5 h6
    have ht0 : 0 ≤ t := regionFallThrough_t al be ga s t (al*ga - be^2) d1 d2
      ((d2 - be) - (d1 - al)) ((d1 - be) - (d2 - ga)) (1 - s - t)
      hal hga hDq rfl hd1 hd2 rfl rfl rfl h1 h2 h3 h4 h5 h6
    have hsum0 : s + t ≤ 1 := regionFallThrough_sum al be ga s t (al*ga - be^2) d1 d2
      ((d2 - be) - (d1 - al)) ((d1 - be) - (d2 - ga)) (1 - s - t)
      hal hga hDq rfl hd1 hd2 rfl rfl rfl h2 h4 h6 hs0 ht0
    constructor
    · intro q hq
      exact Pt.sqDist_nonneg p q
    · refine ⟨p, ⟨s, t, hs0, ht0, hsum0, hp⟩, ?_⟩
      simp [Pt.sqDist]

/-- C1 (amended): for every query point `p` coplanar with a non-degenerate
triangle `a`, `b`, `c` (all in the `z = 0` plane, edge vectors not
collinear), `TriangleCell::squared_distance(p, a, b, c)` returns exactly
`0` when `p` lies on or inside the closed triangle, and otherwise the
squared Euclidean distance to the nearest point of the triangle: the
returned value is a lower bound of `|p-q|²` over all `q` in the triangle,
is attained at some point of the triangle, and is strictly positive
outside.  (As originally stated — for every query point — the claim is
false: for a point off the plane of the triangle the interior branch
returns `0`; see the counterexample.) -/
theorem squaredDistanceTri_correct (p a b c : Pt)
    (hpz : p.z = 0) (haz : a.z = 0) (hbz : b.z = 0) (hcz : c.z = 0)
    (hDz : (b.sub a).x * (c.sub a).y - (b.sub a).y * (c.sub a).x ≠ 0) :
    (InTriangle p a b c → squaredDistanceTri p a b c = 0) ∧
    (∀ q, InTriangle q a b c → squaredDistanceTri p a b c ≤ p.sqDist q) ∧
    (∃ q, InTriangle q a b c ∧ squaredDistanceTri p a b c = p.sqDist q) ∧
    (¬ InTriangle p a b c → 0 < squaredDistanceTri p a b c) := by
  obtain ⟨hopt, hach⟩ := squaredDistanceTri_min p a b c hpz haz hbz hcz hDz
  have hnn : 0 ≤ squaredDistanceTri p a b c := squaredDistanceTri_nonneg_aux p a b c
  refine ⟨?_, hopt, hach, ?_⟩
  · intro hin
    have hle := hopt p hin
    have hpp : p.sqDist p = 0 := by simp [Pt.sqDist]
    linarith [hle, hpp.le, hnn]
  · intro hnot
    rcases lt_or_eq_of_le hnn with h | h
    · exact h
    · exfalso
      obtain ⟨q, hqT, hqe⟩ := hach
      rw [← h] at hqe
      have hpq : p = q := (Pt.sqDist_eq_zero_iff p q).mp hqe.symm
      exact hnot (hpq ▸ hqT)

theorem squaredDistanceTri_correct_witness :
    squaredDistanceTri ⟨1/3, 1/3, 0⟩ ⟨0, 0, 0⟩ ⟨1, 0, 0⟩ ⟨0, 1, 0⟩ = 0 ∧
    0 < squaredDistanceTri ⟨2, 2, 0⟩ ⟨0, 0, 0⟩ ⟨1, 0, 0⟩ ⟨0, 1, 0⟩ := by
  constructor
  · refine (squaredDistanceTri_correct ⟨1/3, 1/3, 0⟩ ⟨0, 0, 0⟩ ⟨1, 0, 0⟩ ⟨0, 1, 0⟩
      rfl rfl rfl rfl (by norm_num [Pt.sub])).1 ?_
    exact ⟨1/3, 1/3, by norm_num, by norm_num, by norm_num, by
      simp [Pt.add, Pt.smul, Pt.sub]⟩
  · refine (squaredDistanceTri_correct ⟨2, 2, 0⟩ ⟨0, 0, 0⟩ ⟨1, 0, 0⟩ ⟨0, 1, 0⟩
      rfl rfl rfl rfl (by norm_num [Pt.sub])).2.2.2 ?_
    rintro ⟨s, t, hs, ht, hsum, he⟩
    have hx : (2:ℚ) = s := by
      have hcx := congrArg Pt.x he
      simpa [Pt.add, Pt.smul, Pt.sub] using hcx
    have hy : (2:ℚ) = t := by
      have hcy := congrArg Pt.y he
      simpa [Pt.add, Pt.smul, Pt.sub] using hcy
    linarith

/-- C1 counterexample: at `p = (1/4, 1/4, 1)` over the triangle
`a = (0,0,0)`, `b = (1,0,0)`, `c = (0,1,0)`, the function returns `0`
(the in-plane region analysis falls through to the interior branch), yet
`p` is not in the closed triangle and every point of the triangle is at
squared distance at least `1` from `p`.  The claim as stated — quantified
over every query point — is therefore false: it holds only for queries
coplanar with the triangle. -/
theorem squaredDistanceTri_zero_off_plane :
    squaredDistanceTri ⟨1/4, 1/4, 1⟩ ⟨0, 0, 0⟩ ⟨1, 0, 0⟩ ⟨0, 1, 0⟩ = 0 ∧
    ¬ InTriangle ⟨1/4, 1/4, 1⟩ ⟨0, 0, 0⟩ ⟨1, 0, 0⟩ ⟨0, 1, 0⟩ ∧
    ∀ q : Pt, InTriangle q ⟨0, 0, 0⟩ ⟨1, 0, 0⟩ ⟨0, 1, 0⟩ →
      1 ≤ Pt.sqDist ⟨1/4, 1/4, 1⟩ q := by
  refine ⟨?_, ?_, ?_⟩
  · unfold squaredDistanceTri
    simp only [Pt.sub, Pt.dot, Pt.add, Pt.smul, Pt.sqDist]
    norm_num
  · intro h
    have hz := inTriangle_z _ _ _ _ rfl rfl rfl h
    simp at hz
  · intro q hq
    have hz := inTriangle_z _ _ _ _ rfl rfl rfl hq
    unfold Pt.sqDist
    rw [hz]
    nlinarith [sq_nonneg ((1:ℚ)/4 - q.x), sq_nonneg ((1:ℚ)/4 - q.y)]

/-!  `TriangleCell::contains` (TriangleCell.cpp lines 481-520). -/

/-- `DOLFIN_EPS` (dolfin/common/constants.h): the fixed tolerance
`3.0e-16` used by the geometric predicates. -/
def DOLFIN_EPS : ℚ := 3 / 10^16

/-- The three vertex coordinates of a triangle cell, as obtained from
`geometry.point(vertices[i])`. -/
structure Triangle where
  p0 : Pt
  p1 : Pt
  p2 : Pt
deriving DecidableEq, Repr

/-- `TriangleCell::contains(cell, point)`: expresses `AP` in the basis
`(AB, AC)` by solving the 2×2 Gram system via the explicit inverse, and
accepts when both coordinates exceed `-DOLFIN_EPS` and their sum is below
`1 + DOLFIN_EPS`.  The rational division mirrors the double division
(`inv_det` is junk for a degenerate cell, exactly as the C++ value is). -/
def containsTri (cell : Triangle) (point : Pt) : Bool :=
  let p0 := cell.p0
  let p1 := cell.p1
  let p2 := cell.p2
  let v1 := p1.sub p0
  let v2 := p2.sub p0
  let v := point.sub p0
  let a11 := v1.dot v1
  let a12 := v1.dot v2
  let a22 := v2.dot v2
  let b1 := v.dot v1
  let b2 := v.dot v2
  let inv_det := 1 / (a11*a22 - a12*a12)
  let x1 := inv_det * (a22*b1 - a12*b2)
  let x2 := inv_det * (-a12*b1 + a11*b2)
  decide (x1 > -DOLFIN_EPS ∧ x2 > -DOLFIN_EPS ∧ x1 + x2 < 1 + DOLFIN_EPS)

/-- C2: for a non-degenerate triangle cell (nonzero Gram determinant),
`TriangleCell::contains(cell, point)` returns true if and only if the
barycentric coordinates `(x1, x2)` of the point — the unique solution of
the 2×2 Gram linear system — satisfy `x1 > -ε`, `x2 > -ε` and
`x1 + x2 < 1 + ε` for the fixed machine-epsilon-scale tolerance
`ε = DOLFIN_EPS = 3.0e-16`.  (The tolerance in the code is the fixed
compile-time constant `DOLFIN_EPS`; it is not read from any configurable
parameter.) -/
theorem containsTri_iff_bary (cell : Triangle) (point : Pt) (x1 x2 : ℚ)
    (hdet : ((cell.p1.sub cell.p0).dot (cell.p1.sub cell.p0))
        * ((cell.p2.sub cell.p0).dot (cell.p2.sub cell.p0))
        - ((cell.p1.sub cell.p0).dot (cell.p2.sub cell.p0))^2 ≠ 0)
    (hsys1 : ((cell.p1.sub cell.p0).dot (cell.p1.sub cell.p0)) * x1
        + ((cell.p1.sub cell.p0).dot (cell.p2.sub cell.p0)) * x2
        = (point.sub cell.p0).dot (cell.p1.sub cell.p0))
    (hsys2 : ((cell.p1.sub cell.p0).dot (cell.p2.sub cell.p0)) * x1
        + ((cell.p2.sub cell.p0).dot (cell.p2.sub cell.p0)) * x2
        = (point.sub cell.p0).dot (cell.p2.sub cell.p0)) :
    containsTri cell point = true
      ↔ (x1 > -DOLFIN_EPS ∧ x2 > -DOLFIN_EPS ∧ x1 + x2 < 1 + DOLFIN_EPS) := by
  unfold containsTri
  dsimp only
  set a11 := (cell.p1.sub cell.p0).dot (cell.p1.sub cell.p0) with ha11
  set a12 := (cell.p1.sub cell.p0).dot (cell.p2.sub cell.p0) with ha12
  set a22 := (cell.p2.sub cell.p0).dot (cell.p2.sub cell.p0) with ha22
  set b1 := (point.sub cell.p0).dot (cell.p1.sub cell.p0) with hb1
  set b2 := (point.sub cell.p0).dot (cell.p2.sub cell.p0) with hb2
  have hd : a11*a22 - a12*a12 ≠ 0 := by
    have hq : a11*a22 - a12*a12 = a11*a22 - a12^2 := by ring
    rw [hq]; exact hdet
  have hx1 : 1 / (a11*a22 - a12*a12) * (a22*b1 - a12*b2) = x1 := by
    field_simp
    first
      | linear_combination a22 * hsys1 - a12 * hsys2
      | linear_combination a12 * hsys2 - a22 * hsys1
  have hx2 : 1 / (a11*a22 - a12*a12) * (-a12*b1 + a11*b2) = x2 := by
    field_simp
    first
      | linear_combination (-a12) * hsys1 + a11 * hsys2
      | linear_combination a12 * hsys1 - a11 * hsys2
  rw [hx1, hx2]
  simp [decide_eq_true_eq]

theorem containsTri_iff_bary_witness :
    containsTri ⟨⟨0, 0, 0⟩, ⟨1, 0, 0⟩, ⟨0, 1, 0⟩⟩ ⟨1/4, 1/4, 0⟩ = true := by
  have h := containsTri_iff_bary ⟨⟨0, 0, 0⟩, ⟨1, 0, 0⟩, ⟨0, 1, 0⟩⟩ ⟨1/4, 1/4, 0⟩
    (1/4) (1/4)
    (by norm_num [Pt.sub, Pt.dot])
    (by norm_num [Pt.sub, Pt.dot])
    (by norm_num [Pt.sub, Pt.dot])
  rw [h]
  norm_num [DOLFIN_EPS]

/-!  `TriangleCell::volume` (TriangleCell.cpp lines 138-181),
`TriangleCell::facet_area` (375-400), `TriangleCell::radius_ratio`
(464-479) and `TriangleCell::diameter` (183-218). -/

/-- `TriangleCell::volume(triangle)`: takes the topological dimension of
the entity (`triangle.dim()`), the geometric embedding dimension
(`geometry.dim()`) and the three vertex coordinates; raises a structural
error (`dolfin_error`) for a non-triangle entity or an embedding dimension
other than 2 or 3, and otherwise returns the closed-form area, verbatim
from the source cofactor expressions. -/
noncomputable def volumeTri (entityDim gdim : ℕ) (x0 x1 x2 : Pt) :
    Except String ℝ :=
  if entityDim ≠ 2 then
    Except.error "Illegal mesh entity, not a triangle"
  else if gdim = 2 then
    let v2 : ℚ := (x0.x*x1.y + x0.y*x2.x + x1.x*x2.y)
      - (x2.x*x1.y + x2.y*x0.x + x1.x*x0.y)
    Except.ok ((1/2) * |(v2 : ℝ)|)
  else if gdim = 3 then
    let v0 : ℚ := (x0.y*x1.z + x0.z*x2.y + x1.y*x2.z)
      - (x2.y*x1.z + x2.z*x0.y + x1.y*x0.z)
    let v1 : ℚ := (x0.z*x1.x + x0.x*x2.z + x1.z*x2.x)
      - (x2.z*x1.x + x2.x*x0.z + x1.z*x0.x)
    let v2 : ℚ := (x0.x*x1.y + x0.y*x2.x + x1.x*x2.y)
      - (x2.x*x1.y + x2.y*x0.x + x1.x*x0.y)
    Except.ok ((1/2) * Real.sqrt ((v0:ℝ)^2 + (v1:ℝ)^2 + (v2:ℝ)^2))
  else
    Except.error "Only know how to compute volume when embedded in R^2 or R^3"

/-- Spec-side 2D formula: half the absolute value of the 2×2 determinant
of the edge vectors. -/
noncomputable def triangleArea2D (x0 x1 x2 : Pt) : ℝ :=
  (1/2) * |(((x1.sub x0).x * (x2.sub x0).y - (x1.sub x0).y * (x2.sub x0).x : ℚ) : ℝ)|

/-- Spec-side 3D formula: half the Euclidean norm of the cross product of
the edge vectors. -/
noncomputable def triangleArea3D (x0 x1 x2 : Pt) : ℝ :=
  (1/2) * Real.sqrt
    ((((x1.sub x0).cross (x2.sub x0)).dot ((x1.sub x0).cross (x2.sub x0)) : ℚ) : ℝ)

/-- C8: `TriangleCell::volume` succeeds exactly when the entity has
topological dimension 2 and the geometric dimension is 2 or 3, and where
it succeeds it returns the spec's closed-form value: half the absolute
2×2 determinant of the edge vectors when `gdim = 2`, half the norm of the
edge cross product when `gdim = 3`. -/
theorem volumeTri_spec (ed gd : ℕ) (x0 x1 x2 : Pt) :
    ((∃ r, volumeTri ed gd x0 x1 x2 = Except.ok r) ↔ (ed = 2 ∧ (gd = 2 ∨ gd = 3))) ∧
    (ed = 2 → gd = 2 →
      volumeTri ed gd x0 x1 x2 = Except.ok (triangleArea2D x0 x1 x2)) ∧
    (ed = 2 → gd = 3 →
      volumeTri ed gd x0 x1 x2 = Except.ok (triangleArea3D x0 x1 x2)) := by
  refine ⟨?_, ?_, ?_⟩
  · unfold volumeTri
    split_ifs with h1 h2 h3 <;>
      simp_all <;> omega
  · rintro rfl rfl
    unfold volumeTri
    norm_num [triangleArea2D]
    congr 1
    push_cast [Pt.sub]
    ring
  · rintro rfl rfl
    unfold volumeTri
    norm_num [triangleArea3D]
    congr 1
    push_cast [Pt.cross, Pt.dot, Pt.sub]
    ring

theorem volumeTri_spec_witness :
    volumeTri 2 2 ⟨0, 0, 0⟩ ⟨1, 0, 0⟩ ⟨0, 1, 0⟩
      = Except.ok (triangleArea2D ⟨0, 0, 0⟩ ⟨1, 0, 0⟩ ⟨0, 1, 0⟩) ∧
    volumeTri 2 3 ⟨0, 0, 0⟩ ⟨1, 0, 0⟩ ⟨0, 1, 0⟩
      = Except.ok (triangleArea3D ⟨0, 0, 0⟩ ⟨1, 0, 0⟩ ⟨0, 1, 0⟩) :=
  ⟨(volumeTri_spec 2 2 ⟨0, 0, 0⟩ ⟨1, 0, 0⟩ ⟨0, 1, 0⟩).2.1 rfl rfl,
   (volumeTri_spec 2 3 ⟨0, 0, 0⟩ ⟨1, 0, 0⟩ ⟨0, 1, 0⟩).2.2 rfl rfl⟩

/-- `TriangleCell::volume` instantiated for a triangle entity in R^2, over
`ℚ` (this branch of the source is division- and square-root-free). -/
def volume2D (t : Triangle) : ℚ :=
  (1/2) * |(t.p0.x*t.p1.y + t.p0.y*t.p2.x + t.p1.x*t.p2.y)
    - (t.p2.x*t.p1.y + t.p2.y*t.p0.x + t.p1.x*t.p0.y)|

/-- Squared distance over the first two coordinates: the loop
`for i < geometry.dim()` of `facet_area` with `gdim = 2`. -/
def sqDist2 (a b : Pt) : ℚ := (a.x - b.x)^2 + (a.y - b.y)^2

/-- `TriangleCell::facet_area(cell, facet)` for a mesh in R^2: the length
of the local facet (edge); after `create_entities`, edge 0 joins vertices
1 and 2, edge 1 joins 0 and 2, edge 2 joins 0 and 1. -/
noncomputable def facet_area (t : Triangle) (facet : ℕ) : ℝ :=
  match facet with
  | 0 => Real.sqrt ((sqDist2 t.p1 t.p2 : ℚ) : ℝ)
  | 1 => Real.sqrt ((sqDist2 t.p0 t.p2 : ℚ) : ℝ)
  | _ => Real.sqrt ((sqDist2 t.p0 t.p1 : ℚ) : ℝ)

/-- Exact real division as a partial operation: `none` models the
non-finite double produced by dividing by zero. -/
noncomputable def rdiv (x y : ℝ) : Option ℝ := if y = 0 then none else some (x / y)

/-- `TriangleCell::radius_ratio(triangle)` (TriangleCell.cpp lines
464-479) for a triangle in R^2: the degenerate case `S == 0.0` is guarded
by an explicit early return of `0`. -/
noncomputable def radius_ratio (t : Triangle) : Option ℝ :=
  let S : ℚ := volume2D t
  if S = 0 then some 0
  else
    let a := facet_area t 0
    let b := facet_area t 1
    let c := facet_area t 2
    rdiv (16*(S:ℝ)*(S:ℝ)) (a*b*c*(a+b+c))

/-- `TriangleCell::diameter(triangle)` (TriangleCell.cpp lines 183-218)
for a triangle in R^2: computes the three side lengths (full 3D point
distances, per the source's FIXME) and returns `0.5*a*b*c / volume` with
no zero-volume guard — the division by `volume(triangle)` is unguarded. -/
noncomputable def diameter (t : Triangle) : Option ℝ :=
  let a := Real.sqrt ((Pt.sqDist t.p1 t.p2 : ℚ) : ℝ)
  let b := Real.sqrt ((Pt.sqDist t.p0 t.p2 : ℚ) : ℝ)
  let c := Real.sqrt ((Pt.sqDist t.p0 t.p1 : ℚ) : ℝ)
  rdiv ((1/2)*a*b*c) ((volume2D t : ℚ) : ℝ)

/-- C3 counterexample: on the degenerate (zero-area) triangle with
vertices `(0,0)`, `(1,0)`, `(2,0)`, `radius_ratio` returns its guarded
sentinel `0`, but `diameter` reaches its division with divisor
`volume = 0`: it has no early-return guard, contradicting the claim that
both functions guard the degenerate case. -/
theorem diameter_unguarded_div_by_zero :
    volume2D ⟨⟨0, 0, 0⟩, ⟨1, 0, 0⟩, ⟨2, 0, 0⟩⟩ = 0 ∧
    diameter ⟨⟨0, 0, 0⟩, ⟨1, 0, 0⟩, ⟨2, 0, 0⟩⟩ = none ∧
    radius_ratio ⟨⟨0, 0, 0⟩, ⟨1, 0, 0⟩, ⟨2, 0, 0⟩⟩ = some 0 := by
  refine ⟨?_, ?_, ?_⟩ <;>
    norm_num [volume2D, diameter, radius_ratio, rdiv]

/-- C3 (amended): on every degenerate (zero-volume) triangle cell,
`radius_ratio` takes its explicit early-return guard and yields the
sentinel `0`; `diameter`, however, has no such guard and performs its
division with divisor zero (modeled as the partial division returning
`none`). -/
theorem degenerate_guard (t : Triangle) (hdeg : volume2D t = 0) :
    radius_ratio t = some 0 ∧ diameter t = none := by
  constructor
  · unfold radius_ratio
    simp [hdeg]
  · unfold diameter rdiv
    simp [hdeg]

theorem degenerate_guard_witness :
    volume2D ⟨⟨0, 0, 0⟩, ⟨3, 0, 0⟩, ⟨5, 0, 0⟩⟩ = 0 ∧
    (radius_ratio ⟨⟨0, 0, 0⟩, ⟨3, 0, 0⟩, ⟨5, 0, 0⟩⟩ = some 0 ∧
      diameter ⟨⟨0, 0, 0⟩, ⟨3, 0, 0⟩, ⟨5, 0, 0⟩⟩ = none) :=
  ⟨by norm_num [volume2D],
   degenerate_guard ⟨⟨0, 0, 0⟩, ⟨3, 0, 0⟩, ⟨5, 0, 0⟩⟩ (by norm_num [volume2D])⟩

/-!  `BoundaryComputation::reorder` (BoundaryComputation.cpp lines
167-243). -/

/-- The cell types dispatched on by `BoundaryComputation::reorder`
(`CellType::Type`). -/
inductive CellKind where
  | point
  | interval
  | triangle
  | tetrahedron
  | quadrilateral
  | hexahedron
deriving DecidableEq, Repr

/-- The loop at lines 173-190: the first cell vertex not contained in the
facet.  The source leaves `vertex` at the last examined cell vertex when
every cell vertex is incident to the facet, and at its initial value `0`
for an empty cell vertex list. -/
def findOppositeVertex : List ℕ → List ℕ → ℕ
  | [], _ => 0
  | [v], _ => v
  | v :: rest, facetVs =>
      if v ∈ facetVs then findOppositeVertex rest facetVs else v

/-- The perpendicular rotation `n = (v.y, -v.x)` used for a triangle-mesh
facet (an edge), computed from the facet's own vertex order (line 206). -/
def normalEdge (p0 p1 : Pt) : Pt := ⟨(p1.sub p0).y, -((p1.sub p0).x), 0⟩

/-- The cross product `n = v1 × v2` used for a tetrahedron-mesh facet (a
face), computed from the facet's own vertex order (line 225). -/
def normalFace (p0 p1 p2 : Pt) : Pt := (p1.sub p0).cross (p2.sub p0)

/-- Swap of the first two entries of the boundary cell's vertex list
(lines 210-212 and 229-231). -/
def swap01 : List ℕ → List ℕ
  | v0 :: v1 :: rest => v1 :: v0 :: rest
  | l => l

/-- The coordinates of the `i`-th facet vertex, `geometry.point(facet.entities(0)[i])`. -/
def facetPoint (geom : ℕ → Pt) (facetVs : List ℕ) (i : ℕ) : Pt :=
  geom (facetVs.getD i 0)

/-- `BoundaryComputation::reorder(vertices, facet)`: finds the cell vertex
opposite to the facet, then — for triangle and tetrahedron parent meshes
only — swaps the first two entries of `vertices` exactly when the facet
normal computed from the facet's own vertex order satisfies
`n.dot(p0 - p) < 0` against the opposite vertex `p`; an interval mesh is
left untouched; any other cell type raises `dolfin_error`.  `facetVs` is
the facet's vertex list `facet.entities(0)`, `cellVs` the vertex list of
the facet's unique incident cell, and `geom` the mesh geometry. -/
def reorder (kind : CellKind) (vertices : List ℕ) (facetVs : List ℕ)
    (cellVs : List ℕ) (geom : ℕ → Pt) : Except String (List ℕ) :=
  let p := geom (findOppositeVertex cellVs facetVs)
  match kind with
  | .interval => Except.ok vertices
  | .triangle =>
      let p0 := facetPoint geom facetVs 0
      let p1 := facetPoint geom facetVs 1
      let n := normalEdge p0 p1
      if n.dot (p0.sub p) < 0 then Except.ok (swap01 vertices)
      else Except.ok vertices
  | .tetrahedron =>
      let p0 := facetPoint geom facetVs 0
      let p1 := facetPoint geom facetVs 1
      let p2 := facetPoint geom facetVs 2
      let n := normalFace p0 p1 p2
      if n.dot (p0.sub p) < 0 then Except.ok (swap01 vertices)
      else Except.ok vertices
  | _ => Except.error "Unknown cell type"

theorem normalEdge_swap (p0 p1 : Pt) : normalEdge p1 p0 = (normalEdge p0 p1).neg := by
  simp only [normalEdge, Pt.sub, Pt.neg, Pt.mk.injEq]
  refine ⟨by ring, by ring, by ring⟩

theorem normalFace_swap (p0 p1 p2 : Pt) :
    normalFace p1 p0 p2 = (normalFace p0 p1 p2).neg := by
  simp only [normalFace, Pt.cross, Pt.sub, Pt.neg, Pt.mk.injEq]
  refine ⟨by ring, by ring, by ring⟩

theorem neg_dot (n v : Pt) : (Pt.neg n).dot v = -(n.dot v) := by
  simp only [Pt.neg, Pt.dot]; ring

theorem normalEdge_dot_shift (p0 p1 p : Pt) :
    (normalEdge p0 p1).dot (p1.sub p) = (normalEdge p0 p1).dot (p0.sub p) := by
  simp only [normalEdge, Pt.dot, Pt.sub]; ring

theorem normalFace_dot_shift (p0 p1 p2 p : Pt) :
    (normalFace p0 p1 p2).dot (p1.sub p) = (normalFace p0 p1 p2).dot (p0.sub p) := by
  simp only [normalFace, Pt.cross, Pt.dot, Pt.sub]; ring

/-- C4: for triangle and tetrahedron parent meshes,
`BoundaryComputation::reorder` swaps the first two vertex indices of the
boundary cell exactly when the sign test `n.dot(p0 - p) < 0` against the
incident cell's non-incident vertex `p` succeeds, where `n` is the
type-specific normal from the facet's own vertex order (perpendicular
rotation `(v.y, -v.x)` for an edge, cross product `v1 × v2` for a face);
and the normal recomputed from the facet's vertex order *after* the
reorder points away from `p` (nonnegative inner product with `p0 - p`). -/
theorem reorder_outward (vertices facetVs cellVs : List ℕ) (geom : ℕ → Pt) :
    (reorder CellKind.triangle vertices facetVs cellVs geom
      = Except.ok
          (if (normalEdge (facetPoint geom facetVs 0) (facetPoint geom facetVs 1)).dot
                ((facetPoint geom facetVs 0).sub
                  (geom (findOppositeVertex cellVs facetVs))) < 0
            then swap01 vertices else vertices)) ∧
    (0 ≤ if (normalEdge (facetPoint geom facetVs 0) (facetPoint geom facetVs 1)).dot
              ((facetPoint geom facetVs 0).sub
                (geom (findOppositeVertex cellVs facetVs))) < 0
          then (normalEdge (facetPoint geom facetVs 1) (facetPoint geom facetVs 0)).dot
              ((facetPoint geom facetVs 1).sub
                (geom (findOppositeVertex cellVs facetVs)))
          else (normalEdge (facetPoint geom facetVs 0) (facetPoint geom facetVs 1)).dot
              ((facetPoint geom facetVs 0).sub
                (geom (findOppositeVertex cellVs facetVs)))) ∧
    (reorder CellKind.tetrahedron vertices facetVs cellVs geom
      = Except.ok
          (if (normalFace (facetPoint geom facetVs 0) (facetPoint geom facetVs 1)
                  (facetPoint geom facetVs 2)).dot
                ((facetPoint geom facetVs 0).sub
                  (geom (findOppositeVertex cellVs facetVs))) < 0
            then swap01 vertices else vertices)) ∧
    (0 ≤ if (normalFace (facetPoint geom facetVs 0) (facetPoint geom facetVs 1)
                (facetPoint geom facetVs 2)).dot
              ((facetPoint geom facetVs 0).sub
                (geom (findOppositeVertex cellVs facetVs))) < 0
          then (normalFace (facetPoint geom facetVs 1) (facetPoint geom facetVs 0)
                (facetPoint geom facetVs 2)).dot
              ((facetPoint geom facetVs 1).sub
                (geom (findOppositeVertex cellVs facetVs)))
          else (normalFace (facetPoint geom facetVs 0) (facetPoint geom facetVs 1)
                (facetPoint geom facetVs 2)).dot
              ((facetPoint geom facetVs 0).sub
                (geom (findOppositeVertex cellVs facetVs)))) := by
  refine ⟨?_, ?_, ?_, ?_⟩
  · unfold reorder
    dsimp only
    split_ifs <;> rfl
  · split_ifs with h
    · rw [normalEdge_swap, neg_dot, normalEdge_dot_shift]
      linarith
    · linarith [not_lt.mp h]
  · unfold reorder
    dsimp only
    split_ifs <;> rfl
  · split_ifs with h
    · rw [normalFace_swap, neg_dot, normalFace_dot_shift]
      linarith
    · linarith [not_lt.mp h]

/-- C10: when the parent mesh's cell type is interval,
`BoundaryComputation::reorder` leaves the boundary cell's vertex list
completely unchanged for every facet — the orientation sign test and the
swap of the first two vertex indices are applied only in the triangle and
tetrahedron cases. -/
theorem reorder_interval_id (vertices facetVs cellVs : List ℕ) (geom : ℕ → Pt) :
    reorder CellKind.interval vertices facetVs cellVs geom = Except.ok vertices :=
  rfl

/-!  `TriangleCell::order` (TriangleCell.cpp lines 402-462). -/

/-- The per-cell connectivity data touched by `TriangleCell::order`: the
cell's vertex triple (its topology `(2,0)` row), the cell's edge triple
(its topology `(2,1)` row), the shared edge→vertex-pair table (topology
`(1,0)`), and three flags recording which connectivity tables have been
computed (the source guards each step by `!topology(d0,d1).empty()`). -/
structure TriOrderState where
  cv : ℕ × ℕ × ℕ
  ce : ℕ × ℕ × ℕ
  ev : ℕ → ℕ × ℕ
  has10 : Bool
  has20 : Bool
  has21 : Bool

/-- Modelled from the spec: `CellType::sort_entities` (not under `src/`)
applied to a 2-element connectivity row — "ascending global-index order"
under the `local_to_global_vertex_indices` map `g`. -/
def sort2 (g : ℕ → ℕ) (r : ℕ × ℕ) : ℕ × ℕ :=
  if g r.2 < g r.1 then (r.2, r.1) else r

/-- Modelled from the spec: `CellType::sort_entities` applied to the
3-element cell vertex row — ascending global-index order, written as a
decision tree on the three key comparisons. -/
def sort3 (g : ℕ → ℕ) (v : ℕ × ℕ × ℕ) : ℕ × ℕ × ℕ :=
  if g v.2.1 < g v.1 then
    if g v.2.2 < g v.1 then
      if g v.2.2 < g v.2.1 then (v.2.2, v.2.1, v.1)
      else (v.2.1, v.2.2, v.1)
    else (v.2.1, v.1, v.2.2)
  else
    if g v.2.2 < g v.2.1 then
      if g v.2.2 < g v.1 then (v.2.2, v.1, v.2.1)
      else (v.1, v.2.2, v.2.1)
    else v

/-- `std::count(edge_vertices, edge_vertices + 2, vertex) == 0` (line
451): the vertex is not stored in the edge's vertex pair. -/
def notIncident (x : ℕ) (r : ℕ × ℕ) : Bool :=
  x != r.1 && x != r.2

/-- The `i = 1` iteration of the edge-reordering loop of
`TriangleCell::order` (lines 443-460): find the first `j ∈ {1, 2}` whose
edge is non-incident to cell vertex 1, swap positions 1 and `j`, break. -/
def step3i (cv : ℕ × ℕ × ℕ) (ev : ℕ → ℕ × ℕ) (c : ℕ × ℕ × ℕ) : ℕ × ℕ × ℕ :=
  if notIncident cv.2.1 (ev c.2.1) then c
  else if notIncident cv.2.1 (ev c.2.2) then (c.1, c.2.2, c.2.1)
  else c

/-- Step 3 of `TriangleCell::order` (lines 433-461), loops unrolled: the
`i = 0` iteration scans `j ∈ {0, 1, 2}` for the first edge non-incident to
cell vertex 0 and swaps it to position 0; then the `i = 1` iteration
(`step3i`); the `i = 2` iteration can only swap position 2 with itself and
is the identity. -/
def step3 (cv : ℕ × ℕ × ℕ) (ev : ℕ → ℕ × ℕ) (ce : ℕ × ℕ × ℕ) : ℕ × ℕ × ℕ :=
  if notIncident cv.1 (ev ce.1) then step3i cv ev ce
  else if notIncident cv.1 (ev ce.2.1) then step3i cv ev (ce.2.1, ce.1, ce.2.2)
  else if notIncident cv.1 (ev ce.2.2) then step3i cv ev (ce.2.2, ce.2.1, ce.1)
  else step3i cv ev ce

/-- `TriangleCell::order(cell, local_to_global_vertex_indices)`:
step 1 (guarded by `!topology(1,0).empty()`) sorts the vertex pair of each
of the cell's three edges in the shared table; step 2 (guarded by
`!topology(2,0).empty()`) sorts the cell's vertex triple; step 3 (guarded
by `!topology(2,1).empty()`) reorders the cell's edge triple after the
non-incident vertex. -/
def evUpd (g : ℕ → ℕ) (rows : ℕ × ℕ × ℕ) (ev : ℕ → ℕ × ℕ) : ℕ → ℕ × ℕ :=
  fun e => if e = rows.1 ∨ e = rows.2.1 ∨ e = rows.2.2
           then sort2 g (ev e) else ev e

def orderTri (g : ℕ → ℕ) (st : TriOrderState) : TriOrderState :=
  let ev1 := if st.has10 then evUpd g st.ce st.ev else st.ev
  let cv1 := if st.has20 then sort3 g st.cv else st.cv
  let ce1 := if st.has21 then step3 cv1 ev1 st.ce else st.ce
  { st with cv := cv1, ce := ce1, ev := ev1 }

/-- The multiset of indices stored in a 3-entry connectivity row. -/
def tripleMS (v : ℕ × ℕ × ℕ) : Multiset ℕ := {v.1, v.2.1, v.2.2}

/-- The multiset of indices stored in a 2-entry connectivity row. -/
def pairMS (r : ℕ × ℕ) : Multiset ℕ := {r.1, r.2}

theorem ms3_swap01 (x y z : ℕ) : ({y, x, z} : Multiset ℕ) = {x, y, z} := by
  simp only [Multiset.insert_eq_cons]
  exact Multiset.cons_swap y x _

theorem ms3_swap12 (x y z : ℕ) : ({x, z, y} : Multiset ℕ) = {x, y, z} := by
  simp only [Multiset.insert_eq_cons]
  congr 1
  exact Multiset.cons_swap z y _

theorem ms3_rot (x y z : ℕ) : ({y, z, x} : Multiset ℕ) = {x, y, z} := by
  rw [ms3_swap12 y x z, ms3_swap01 x y z]

theorem sort2_pairMS (g : ℕ → ℕ) (r : ℕ × ℕ) : pairMS (sort2 g r) = pairMS r := by
  obtain ⟨x, y⟩ := r
  by_cases h : g y < g x <;> simp [sort2, h, pairMS]
  exact Multiset.cons_swap y x _

theorem sort2_sorted (g : ℕ → ℕ) (r : ℕ × ℕ) : g (sort2 g r).1 ≤ g (sort2 g r).2 := by
  obtain ⟨x, y⟩ := r
  by_cases h : g y < g x <;> simp [sort2, h] <;> omega

theorem sort2_eq_of_sorted (g : ℕ → ℕ) (r : ℕ × ℕ) (h : g r.1 ≤ g r.2) :
    sort2 g r = r := by
  obtain ⟨x, y⟩ := r
  dsimp only at h
  simp only [sort2]
  rw [if_neg (by omega)]

theorem sort2_idem (g : ℕ → ℕ) (r : ℕ × ℕ) : sort2 g (sort2 g r) = sort2 g r :=
  sort2_eq_of_sorted g _ (sort2_sorted g r)

theorem sort3_tripleMS (g : ℕ → ℕ) (v : ℕ × ℕ × ℕ) :
    tripleMS (sort3 g v) = tripleMS v := by
  obtain ⟨x, y, z⟩ := v
  simp only [sort3, tripleMS]
  split_ifs <;>
    first
      | rfl
      | exact ms3_swap01 x y z
      | exact ms3_swap12 x y z
      | exact ms3_rot x y z
      | { rw [ms3_swap01 y z x, ms3_rot x y z] }
      | { rw [ms3_swap01 x z y, ms3_swap12 x y z] }
      | { rw [ms3_swap12 y x z, ms3_swap01 x y z] }

theorem sort3_sorted (g : ℕ → ℕ) (v : ℕ × ℕ × ℕ) :
    g (sort3 g v).1 ≤ g (sort3 g v).2.1 ∧ g (sort3 g v).2.1 ≤ g (sort3 g v).2.2 := by
  obtain ⟨x, y, z⟩ := v
  simp only [sort3]
  split_ifs <;> constructor <;> dsimp only <;> omega

theorem sort3_eq_of_sorted (g : ℕ → ℕ) (v : ℕ × ℕ × ℕ)
    (h1 : g v.1 ≤ g v.2.1) (h2 : g v.2.1 ≤ g v.2.2) : sort3 g v = v := by
  obtain ⟨x, y, z⟩ := v
  dsimp only at h1 h2
  simp only [sort3]
  rw [if_neg (by omega), if_neg (by omega)]

theorem sort3_idem (g : ℕ → ℕ) (v : ℕ × ℕ × ℕ) :
    sort3 g (sort3 g v) = sort3 g v :=
  sort3_eq_of_sorted g _ (sort3_sorted g v).1 (sort3_sorted g v).2

theorem step3i_fst (cv : ℕ × ℕ × ℕ) (ev : ℕ → ℕ × ℕ) (c : ℕ × ℕ × ℕ) :
    (step3i cv ev c).1 = c.1 := by
  simp only [step3i]
  split_ifs <;> rfl

theorem step3i_tail (cv : ℕ × ℕ × ℕ) (ev : ℕ → ℕ × ℕ) (c : ℕ × ℕ × ℕ) :
    ((step3i cv ev c).2.1 = c.2.1 ∧ (step3i cv ev c).2.2 = c.2.2)
    ∨ ((step3i cv ev c).2.1 = c.2.2 ∧ (step3i cv ev c).2.2 = c.2.1) := by
  simp only [step3i]
  split_ifs <;> simp

theorem step3i_tripleMS (cv : ℕ × ℕ × ℕ) (ev : ℕ → ℕ × ℕ) (c : ℕ × ℕ × ℕ) :
    tripleMS (step3i cv ev c) = tripleMS c := by
  obtain ⟨e0, e1, e2⟩ := c
  simp only [step3i, tripleMS]
  split_ifs <;> first | rfl | exact ms3_swap12 e0 e1 e2

theorem step3i_idem (cv : ℕ × ℕ × ℕ) (ev : ℕ → ℕ × ℕ) (c : ℕ × ℕ × ℕ) :
    step3i cv ev (step3i cv ev c) = step3i cv ev c := by
  obtain ⟨e0, e1, e2⟩ := c
  simp only [step3i]
  split_ifs with h1 h2 <;> simp_all [step3i]

theorem step3_tripleMS (cv : ℕ × ℕ × ℕ) (ev : ℕ → ℕ × ℕ) (ce : ℕ × ℕ × ℕ) :
    tripleMS (step3 cv ev ce) = tripleMS ce := by
  obtain ⟨e0, e1, e2⟩ := ce
  simp only [step3]
  split_ifs <;> rw [step3i_tripleMS] <;>
    first
      | rfl
      | exact ms3_swap01 e0 e1 e2
      | { show tripleMS (e2, e1, e0) = tripleMS (e0, e1, e2)
          simp only [tripleMS]
          rw [ms3_swap01 e1 e2 e0, ms3_rot e0 e1 e2] }

theorem step3_idem (cv : ℕ × ℕ × ℕ) (ev : ℕ → ℕ × ℕ) (ce : ℕ × ℕ × ℕ) :
    step3 cv ev (step3 cv ev ce) = step3 cv ev ce := by
  obtain ⟨e0, e1, e2⟩ := ce
  by_cases h1 : notIncident cv.1 (ev e0)
  · have hin : step3 cv ev (e0, e1, e2) = step3i cv ev (e0, e1, e2) := by
      simp [step3, h1]
    rw [hin]
    have hfst : notIncident cv.1 (ev (step3i cv ev (e0, e1, e2)).1) = true := by
      rw [step3i_fst]; exact h1
    simp only [step3, hfst, if_pos]
    exact step3i_idem cv ev _
  · by_cases h2 : notIncident cv.1 (ev e1)
    · have hin : step3 cv ev (e0, e1, e2) = step3i cv ev (e1, e0, e2) := by
        simp [step3, h1, h2]
      rw [hin]
      have hfst : notIncident cv.1 (ev (step3i cv ev (e1, e0, e2)).1) = true := by
        rw [step3i_fst]; exact h2
      simp only [step3, hfst, if_pos]
      exact step3i_idem cv ev _
    · by_cases h3 : notIncident cv.1 (ev e2)
      · have hin : step3 cv ev (e0, e1, e2) = step3i cv ev (e2, e1, e0) := by
          simp [step3, h1, h2, h3]
        rw [hin]
        have hfst : notIncident cv.1 (ev (step3i cv ev (e2, e1, e0)).1) = true := by
          rw [step3i_fst]; exact h3
        simp only [step3, hfst, if_pos]
        exact step3i_idem cv ev _
      · have hin : step3 cv ev (e0, e1, e2) = step3i cv ev (e0, e1, e2) := by
          simp [step3, h1, h2, h3]
        rw [hin]
        have hfst : notIncident cv.1 (ev (step3i cv ev (e0, e1, e2)).1) = false := by
          rw [step3i_fst]; simpa using h1
        have htail := step3i_tail cv ev (e0, e1, e2)
        rcases htail with ⟨ht1, ht2⟩ | ⟨ht1, ht2⟩
        · have hc2 : notIncident cv.1 (ev (step3i cv ev (e0, e1, e2)).2.1) = false := by
            rw [ht1]; simpa using h2
          have hc3 : notIncident cv.1 (ev (step3i cv ev (e0, e1, e2)).2.2) = false := by
            rw [ht2]; simpa using h3
          simp only [step3, hfst, hc2, hc3, Bool.false_eq_true, if_false]
          exact step3i_idem cv ev _
        · have hc2 : notIncident cv.1 (ev (step3i cv ev (e0, e1, e2)).2.1) = false := by
            rw [ht1]; simpa using h3
          have hc3 : notIncident cv.1 (ev (step3i cv ev (e0, e1, e2)).2.2) = false := by
            rw [ht2]; simpa using h2
          simp only [step3, hfst, hc2, hc3, Bool.false_eq_true, if_false]
          exact step3i_idem cv ev _

theorem tripleMS_mem (v : ℕ × ℕ × ℕ) (x : ℕ) :
    x ∈ tripleMS v ↔ (x = v.1 ∨ x = v.2.1 ∨ x = v.2.2) := by
  simp [tripleMS]

theorem step3_rows (cv : ℕ × ℕ × ℕ) (ev : ℕ → ℕ × ℕ) (ce : ℕ × ℕ × ℕ) (x : ℕ) :
    (x = (step3 cv ev ce).1 ∨ x = (step3 cv ev ce).2.1 ∨ x = (step3 cv ev ce).2.2)
      ↔ (x = ce.1 ∨ x = ce.2.1 ∨ x = ce.2.2) := by
  rw [← tripleMS_mem, ← tripleMS_mem, step3_tripleMS]

theorem evUpd_pairMS (g : ℕ → ℕ) (rows : ℕ × ℕ × ℕ) (ev : ℕ → ℕ × ℕ) (e : ℕ) :
    pairMS (evUpd g rows ev e) = pairMS (ev e) := by
  unfold evUpd
  split_ifs
  · exact sort2_pairMS g (ev e)
  · rfl

theorem evUpd_idem_rows (g : ℕ → ℕ) (rows rows2 : ℕ × ℕ × ℕ) (ev : ℕ → ℕ × ℕ)
    (hrows : ∀ x, (x = rows2.1 ∨ x = rows2.2.1 ∨ x = rows2.2.2)
      ↔ (x = rows.1 ∨ x = rows.2.1 ∨ x = rows.2.2)) :
    evUpd g rows2 (evUpd g rows ev) = evUpd g rows ev := by
  funext e
  by_cases he : e = rows.1 ∨ e = rows.2.1 ∨ e = rows.2.2
  · have he2 : e = rows2.1 ∨ e = rows2.2.1 ∨ e = rows2.2.2 := (hrows e).mpr he
    simp only [evUpd, if_pos he, if_pos he2]
    exact sort2_idem g (ev e)
  · have he2 : ¬ (e = rows2.1 ∨ e = rows2.2.1 ∨ e = rows2.2.2) :=
      fun h => he ((hrows e).mp h)
    simp only [evUpd, if_neg he, if_neg he2]

/-- C6: `TriangleCell::order` is idempotent — applying it a second time to
the per-cell connectivity state is a no-op — and a single application
changes only local orderings: the multiset of vertex indices in the cell's
vertex row, the multiset of edge indices in the cell's edge row, and the
multiset of vertex indices in every edge's row of the shared `(1,0)`
table are all unchanged. -/
theorem orderTri_idem_and_content (g : ℕ → ℕ) (st : TriOrderState) :
    orderTri g (orderTri g st) = orderTri g st ∧
    tripleMS (orderTri g st).cv = tripleMS st.cv ∧
    tripleMS (orderTri g st).ce = tripleMS st.ce ∧
    (∀ e, pairMS ((orderTri g st).ev e) = pairMS (st.ev e)) := by
  obtain ⟨cv, ce, ev, h10, h20, h21⟩ := st
  cases h10 <;> cases h20 <;> cases h21 <;>
      simp only [orderTri, Bool.false_eq_true, if_false, if_true] <;>
      refine ⟨?_, ?_, ?_, ?_⟩
  case false.false.false.refine_1 => trivial
  case false.false.false.refine_2 => trivial
  case false.false.false.refine_3 => trivial
  case false.false.false.refine_4 => intro e; trivial
  case false.false.true.refine_1 => rw [step3_idem]
  case false.false.true.refine_2 => trivial
  case false.false.true.refine_3 => exact step3_tripleMS _ _ ce
  case false.false.true.refine_4 => intro e; trivial
  case false.true.false.refine_1 => rw [sort3_idem]
  case false.true.false.refine_2 => exact sort3_tripleMS g cv
  case false.true.false.refine_3 => trivial
  case false.true.false.refine_4 => intro e; trivial
  case false.true.true.refine_1 => rw [sort3_idem, step3_idem]
  case false.true.true.refine_2 => exact sort3_tripleMS g cv
  case false.true.true.refine_3 => exact step3_tripleMS _ _ ce
  case false.true.true.refine_4 => intro e; trivial
  case true.false.false.refine_1 =>
    rw [evUpd_idem_rows g ce ce ev (fun x => Iff.rfl)]
  case true.false.false.refine_2 => trivial
  case true.false.false.refine_3 => trivial
  case true.false.false.refine_4 => intro e; exact evUpd_pairMS g ce ev e
  case true.false.true.refine_1 =>
    rw [evUpd_idem_rows g ce _ ev (fun x => step3_rows _ _ ce x), step3_idem]
  case true.false.true.refine_2 => trivial
  case true.false.true.refine_3 => exact step3_tripleMS _ _ ce
  case true.false.true.refine_4 => intro e; exact evUpd_pairMS g ce ev e
  case true.true.false.refine_1 =>
    rw [sort3_idem, evUpd_idem_rows g ce ce ev (fun x => Iff.rfl)]
  case true.true.false.refine_2 => exact sort3_tripleMS g cv
  case true.true.false.refine_3 => trivial
  case true.true.false.refine_4 => intro e; exact evUpd_pairMS g ce ev e
  case true.true.true.refine_1 =>
    rw [sort3_idem, evUpd_idem_rows g ce _ ev (fun x => step3_rows _ _ ce x),
        step3_idem]
  case true.true.true.refine_2 => exact sort3_tripleMS g cv
  case true.true.true.refine_3 => exact step3_tripleMS _ _ ce
  case true.true.true.refine_4 => intro e; exact evUpd_pairMS g ce ev e

/-!  `Mesh::closest_cell` and `Mesh::distance` (declared in Mesh.h lines
617-661 and exercised by
test/unit/intersection/cpp/IntersectionOperator.cpp; the implementation in
Mesh.cpp / the intersection operator is not under `src/`). -/

/-- `TriangleCell::squared_distance(cell, point)` (TriangleCell.cpp lines
220-231): fetch the three vertex coordinates and delegate. -/
def sqDistToCell (p : Pt) (t : Triangle) : ℚ :=
  squaredDistanceTri p t.p0 t.p1 t.p2

/-- The default triangle used only to give list indexing a total type. -/
def Tdflt : Triangle := ⟨⟨0, 0, 0⟩, ⟨0, 0, 0⟩, ⟨0, 0, 0⟩⟩

/-- Modelled from the spec: the linear scan behind `Mesh::closest_cell`
(its implementation is not under `src/`): iterate over the remaining
cells, keeping the current best index and best squared distance and
replacing them only on a strictly smaller squared distance — which
realizes "ties broken by lowest index". -/
def closestCellAux (p : Pt) : List Triangle → ℕ → ℕ × ℚ → ℕ × ℚ
  | [], _, acc => acc
  | t :: rest, i, acc =>
      if sqDistToCell p t < acc.2
      then closestCellAux p rest (i+1) (i, sqDistToCell p t)
      else closestCellAux p rest (i+1) acc

/-- Modelled from the spec: `Mesh::closest_cell(point)` "returns the index
of the cell minimizing squared_distance(point, cell), ties broken by
lowest index". -/
def closestCell (p : Pt) (cells : List Triangle) : ℕ :=
  match cells with
  | [] => 0
  | t :: rest => (closestCellAux p rest 1 (0, sqDistToCell p t)).1

/-- Modelled from the spec: `Mesh::distance(point)` is the square root of
the squared distance to the closest cell. -/
noncomputable def meshDistance (p : Pt) (cells : List Triangle) : ℝ :=
  Real.sqrt ((sqDistToCell p (cells.getD (closestCell p cells) Tdflt) : ℚ) : ℝ)

/-- `Cell::midpoint()`: the average of the cell's vertex coordinates. -/
def cellMidpoint (t : Triangle) : Pt :=
  ⟨(t.p0.x + t.p1.x + t.p2.x)/3, (t.p0.y + t.p1.y + t.p2.y)/3,
   (t.p0.z + t.p1.z + t.p2.z)/3⟩

/-- A triangle cell lying in the `z = 0` plane with independent edge
vectors (the non-degenerate 2D situation of the distance kernel). -/
def PlanarNondeg (t : Triangle) : Prop :=
  t.p0.z = 0 ∧ t.p1.z = 0 ∧ t.p2.z = 0 ∧
  (t.p1.sub t.p0).x * (t.p2.sub t.p0).y
    - (t.p1.sub t.p0).y * (t.p2.sub t.p0).x ≠ 0

theorem sqdTri_zero_of_mem (p a b c : Pt)
    (hpz : p.z = 0) (haz : a.z = 0) (hbz : b.z = 0) (hcz : c.z = 0)
    (hDz : (b.sub a).x * (c.sub a).y - (b.sub a).y * (c.sub a).x ≠ 0)
    (h : InTriangle p a b c) : squaredDistanceTri p a b c = 0 := by
  obtain ⟨hopt, -⟩ := squaredDistanceTri_min p a b c hpz haz hbz hcz hDz
  have h1 := hopt p h
  have h2 : p.sqDist p = 0 := by simp [Pt.sqDist]
  have h3 := squaredDistanceTri_nonneg_aux p a b c
  linarith [h1, h2.le, h3]

theorem sqdTri_pos_of_not_mem (p a b c : Pt)
    (hpz : p.z = 0) (haz : a.z = 0) (hbz : b.z = 0) (hcz : c.z = 0)
    (hDz : (b.sub a).x * (c.sub a).y - (b.sub a).y * (c.sub a).x ≠ 0)
    (h : ¬ InTriangle p a b c) : 0 < squaredDistanceTri p a b c := by
  obtain ⟨-, hach⟩ := squaredDistanceTri_min p a b c hpz haz hbz hcz hDz
  have h3 := squaredDistanceTri_nonneg_aux p a b c
  rcases lt_or_eq_of_le h3 with hlt | heq
  · exact hlt
  · exfalso
    obtain ⟨q, hqT, hqe⟩ := hach
    rw [← heq] at hqe
    have hpq : p = q := (Pt.sqDist_eq_zero_iff p q).mp hqe.symm
    exact h (hpq ▸ hqT)

theorem closestCellAux_spec (p : Pt) (l : List Triangle) (f : ℕ → ℚ) :
    ∀ (i best : ℕ) (bestSq : ℚ),
    (∀ k, k < l.length → f (i + k) = sqDistToCell p (l.getD k Tdflt)) →
    best < i → f best = bestSq →
    (∀ j, j < i → bestSq ≤ f j) →
    (∀ j, j < best → bestSq < f j) →
    (closestCellAux p l i (best, bestSq)).1 < i + l.length ∧
    f (closestCellAux p l i (best, bestSq)).1 = (closestCellAux p l i (best, bestSq)).2 ∧
    (∀ j, j < i + l.length → (closestCellAux p l i (best, bestSq)).2 ≤ f j) ∧
    (∀ j, j < (closestCellAux p l i (best, bestSq)).1 →
      (closestCellAux p l i (best, bestSq)).2 < f j) := by
  induction l with
  | nil =>
      intro i best bestSq hif hbi hbv hmin hstrict
      simp only [closestCellAux, List.length_nil, Nat.add_zero]
      exact ⟨hbi, hbv, hmin, hstrict⟩
  | cons t rest ih =>
      intro i best bestSq hif hbi hbv hmin hstrict
      have hft : f i = sqDistToCell p t := by
        have := hif 0 (by simp)
        simpa using this
      have hifr : ∀ k, k < rest.length → f (i + 1 + k) = sqDistToCell p (rest.getD k Tdflt) := by
        intro k hk
        have h1 := hif (k+1) (by simp only [List.length_cons]; omega)
        rw [show i + 1 + k = i + (k + 1) by omega]
        simpa only [List.getD_cons_succ] using h1
      simp only [closestCellAux]
      split_ifs with hlt
      · -- new best at index i
        have hres := ih (i+1) i (sqDistToCell p t) hifr
          (Nat.lt_succ_self i) hft
          (fun j hj => by
            rcases Nat.lt_succ_iff_lt_or_eq.mp hj with h | h
            · exact le_of_lt (lt_of_lt_of_le hlt (hmin j h))
            · subst h; exact hft.ge)
          (fun j hj => lt_of_lt_of_le hlt (hmin j hj))
        refine ⟨?_, hres.2.1, ?_, hres.2.2.2⟩
        · have h1 := hres.1
          simp only [List.length_cons]
          omega
        · intro j hj
          apply hres.2.2.1
          simp only [List.length_cons] at hj
          omega
      · -- keep old best
        have hge : bestSq ≤ sqDistToCell p t := not_lt.mp hlt
        have hres := ih (i+1) best bestSq hifr
          (Nat.lt_succ_of_lt hbi) hbv
          (fun j hj => by
            rcases Nat.lt_succ_iff_lt_or_eq.mp hj with h | h
            · exact hmin j h
            · subst h; rw [hft]; exact hge)
          hstrict
        refine ⟨?_, hres.2.1, ?_, hres.2.2.2⟩
        · have h1 := hres.1
          simp only [List.length_cons]
          omega
        · intro j hj
          apply hres.2.2.1
          simp only [List.length_cons] at hj
          omega

theorem closestCell_argmin (p : Pt) (cells : List Triangle) (hne : cells ≠ []) :
    closestCell p cells < cells.length ∧
    (∀ j, j < cells.length →
      sqDistToCell p (cells.getD (closestCell p cells) Tdflt)
        ≤ sqDistToCell p (cells.getD j Tdflt)) ∧
    (∀ j, j < closestCell p cells →
      sqDistToCell p (cells.getD (closestCell p cells) Tdflt)
        < sqDistToCell p (cells.getD j Tdflt)) := by
  cases cells with
  | nil => exact absurd rfl hne
  | cons t rest =>
    have h := closestCellAux_spec p rest
      (fun j => sqDistToCell p ((t :: rest).getD j Tdflt)) 1 0 (sqDistToCell p t)
      (fun k hk => by
        rw [Nat.add_comm 1 k]
        simp only [List.getD_cons_succ])
      Nat.one_pos
      (by simp only [List.getD_cons_zero])
      (fun j hj => by
        have hj0 : j = 0 := by omega
        subst hj0
        simp only [List.getD_cons_zero]
        exact le_refl _)
      (fun j hj => absurd hj (Nat.not_lt_zero j))
    have hcc : closestCell p (t :: rest) = (closestCellAux p rest 1 (0, sqDistToCell p t)).1 := rfl
    obtain ⟨h1, h2, h3, h4⟩ := h
    rw [hcc]
    refine ⟨by simp only [List.length_cons]; omega, ?_, ?_⟩
    · intro j hj
      rw [show sqDistToCell p ((t :: rest).getD (closestCellAux p rest 1 (0, sqDistToCell p t)).1 Tdflt) = (closestCellAux p rest 1 (0, sqDistToCell p t)).2 from h2]
      exact h3 j (by simp only [List.length_cons] at hj; omega)
    · intro j hj
      rw [show sqDistToCell p ((t :: rest).getD (closestCellAux p rest 1 (0, sqDistToCell p t)).1 Tdflt) = (closestCellAux p rest 1 (0, sqDistToCell p t)).2 from h2]
      exact h4 j hj

/-- C7.  `Mesh::closest_cell(p)` returns the index of the cell minimizing
`squared_distance(p, cell)`, ties broken by the lowest cell index; and for
every cell whose midpoint is not contained in any other cell (the cells
being coplanar and non-degenerate), `closest_cell` at that cell's midpoint
returns the cell's own index and `Mesh::distance` there is exactly 0. -/
theorem closestCell_spec :
    (∀ (p : Pt) (cells : List Triangle), cells ≠ [] →
      closestCell p cells < cells.length ∧
      (∀ j, j < cells.length →
        sqDistToCell p (cells.getD (closestCell p cells) Tdflt)
          ≤ sqDistToCell p (cells.getD j Tdflt)) ∧
      (∀ j, j < closestCell p cells →
        sqDistToCell p (cells.getD (closestCell p cells) Tdflt)
          < sqDistToCell p (cells.getD j Tdflt))) ∧
    (∀ (cells : List Triangle) (k : ℕ), k < cells.length →
      (∀ t ∈ cells, PlanarNondeg t) →
      (∀ j, j < cells.length → j ≠ k →
        ¬ InTriangle (cellMidpoint (cells.getD k Tdflt))
            (cells.getD j Tdflt).p0 (cells.getD j Tdflt).p1 (cells.getD j Tdflt).p2) →
      closestCell (cellMidpoint (cells.getD k Tdflt)) cells = k ∧
      meshDistance (cellMidpoint (cells.getD k Tdflt)) cells = 0) := by
  constructor
  · exact fun p cells hne => closestCell_argmin p cells hne
  · intro cells k hk hplanar hnotin
    have hcmem : cells.getD k Tdflt ∈ cells := by
      rw [List.getD_eq_getElem cells Tdflt hk]
      exact List.getElem_mem hk
    obtain ⟨hz0, hz1, hz2, hD⟩ := hplanar _ hcmem
    have hmz : (cellMidpoint (cells.getD k Tdflt)).z = 0 := by
      simp only [cellMidpoint, hz0, hz1, hz2]
      norm_num
    have hmem : InTriangle (cellMidpoint (cells.getD k Tdflt))
        (cells.getD k Tdflt).p0 (cells.getD k Tdflt).p1 (cells.getD k Tdflt).p2 := by
      refine ⟨1/3, 1/3, by norm_num, by norm_num, by norm_num, ?_⟩
      apply Pt.ext_xyz <;> simp only [cellMidpoint, Pt.add, Pt.smul, Pt.sub] <;> ring
    have hzero : sqDistToCell (cellMidpoint (cells.getD k Tdflt)) (cells.getD k Tdflt) = 0 :=
      sqdTri_zero_of_mem _ _ _ _ hmz hz0 hz1 hz2 hD hmem
    have hpos : ∀ j, j < cells.length → j ≠ k →
        0 < sqDistToCell (cellMidpoint (cells.getD k Tdflt)) (cells.getD j Tdflt) := by
      intro j hj hjk
      have hjmem : cells.getD j Tdflt ∈ cells := by
        rw [List.getD_eq_getElem cells Tdflt hj]
        exact List.getElem_mem hj
      obtain ⟨hjz0, hjz1, hjz2, hjD⟩ := hplanar _ hjmem
      exact sqdTri_pos_of_not_mem _ _ _ _ hmz hjz0 hjz1 hjz2 hjD (hnotin j hj hjk)
    have hne : cells ≠ [] := List.ne_nil_of_length_pos (Nat.pos_of_ne_zero (by omega))
    obtain ⟨hlt, hmin, hstrict⟩ := closestCell_argmin (cellMidpoint (cells.getD k Tdflt)) cells hne
    have hr : closestCell (cellMidpoint (cells.getD k Tdflt)) cells = k := by
      by_contra hner
      have hp1 := hpos _ hlt hner
      have hp2 := hmin k hk
      rw [hzero] at hp2
      linarith
    refine ⟨hr, ?_⟩
    simp only [meshDistance, hr, hzero, Rat.cast_zero, Real.sqrt_zero]

theorem closestCell_spec_witness :
    closestCell (cellMidpoint (([⟨⟨0,0,0⟩,⟨1,0,0⟩,⟨0,1,0⟩⟩, ⟨⟨1,0,0⟩,⟨1,1,0⟩,⟨0,1,0⟩⟩] : List Triangle).getD 1 Tdflt))
      [⟨⟨0,0,0⟩,⟨1,0,0⟩,⟨0,1,0⟩⟩, ⟨⟨1,0,0⟩,⟨1,1,0⟩,⟨0,1,0⟩⟩] = 1 ∧
    meshDistance (cellMidpoint (([⟨⟨0,0,0⟩,⟨1,0,0⟩,⟨0,1,0⟩⟩, ⟨⟨1,0,0⟩,⟨1,1,0⟩,⟨0,1,0⟩⟩] : List Triangle).getD 1 Tdflt))
      [⟨⟨0,0,0⟩,⟨1,0,0⟩,⟨0,1,0⟩⟩, ⟨⟨1,0,0⟩,⟨1,1,0⟩,⟨0,1,0⟩⟩] = 0 := by
  apply closestCell_spec.2 _ 1 (by norm_num)
  · intro t ht
    simp only [List.mem_cons, List.mem_singleton, List.not_mem_nil, or_false] at ht
    rcases ht with h | h <;> subst h <;>
      exact ⟨rfl, rfl, rfl, by norm_num [Pt.sub]⟩
  · intro j hj hjne
    simp only [List.length_cons, List.length_nil] at hj
    have hj0 : j = 0 := by omega
    subst hj0
    simp only [List.getD_cons_zero, List.getD_cons_succ]
    rintro ⟨s, t, hs, ht, hst, he⟩
    have hx := congrArg Pt.x he
    have hy := congrArg Pt.y he
    simp only [cellMidpoint, Pt.add, Pt.smul, Pt.sub] at hx hy
    norm_num at hx hy
    linarith

/-!  `BoundaryComputation::compute_boundary` (BoundaryComputation.cpp lines
44-165), specialized to `type == "exterior"`, for which lines 54-59 set
`exterior = true` and `interior = false`. -/

/-- A parent-mesh facet as `compute_boundary` sees it: its vertex indices
(`f->entities(0)` in facet-local order), the number of locally incident
cells (`f->num_entities(D)`), the number of globally visible incident
cells (`f->num_global_entities(D)`), and the vertex indices of its first
incident cell (`cell.entities(0)` for the cell at
`facet.entities(D)[0]`, consumed by `reorder`). -/
structure BFacet where
  vertices : List ℕ
  numLocalCells : ℕ
  numGlobalCells : ℕ
  cellVertices : List ℕ
deriving DecidableEq, Repr

/-- The parent-mesh data consumed by `compute_boundary`. -/
structure BMesh where
  numVertices : ℕ
  facets : List BFacet
deriving DecidableEq, Repr

/-- Lines 87-93 with `exterior = true`, `interior = false`: a facet is
marked `boundary_facet` iff it is connected to exactly one cell locally
and that cell is globally visible (`num_global_entities(D) == 1`). -/
def isBoundaryFacet (f : BFacet) : Bool :=
  f.numLocalCells == 1 && f.numGlobalCells == 1

/-- The inner vertex loop at lines 98-103: give the next free boundary
index to each vertex of a boundary facet still holding the sentinel
(`boundary_vertices[v] == num_vertices`). -/
def assignVertices (nv : ℕ) : List ℕ → (ℕ → ℕ) × ℕ → (ℕ → ℕ) × ℕ
  | [], st => st
  | v :: vs, (bv, n) =>
      if bv v = nv then
        assignVertices nv vs ((fun w => if w = v then n else bv w), n + 1)
      else assignVertices nv vs (bv, n)

/-- The first facet loop (lines 84-109): returns the final
`boundary_vertices` array (as a function from parent vertex index),
`num_boundary_vertices` and `num_boundary_cells`. -/
def pass1 (nv : ℕ) : List BFacet → (ℕ → ℕ) × ℕ × ℕ → (ℕ → ℕ) × ℕ × ℕ
  | [], st => st
  | f :: fs, (bv, nbv, nbc) =>
      if isBoundaryFacet f then
        pass1 nv fs ((assignVertices nv f.vertices (bv, nbv)).1,
          (assignVertices nv f.vertices (bv, nbv)).2, nbc + 1)
      else pass1 nv fs (bv, nbv, nbc)

/-- The vertex loop at lines 119-132: for every parent vertex `v` whose
sentinel was overwritten, write `vertex_map[boundary_vertices[v]] = v`
into the size-`nbv` map. -/
def pass2 (nv nbv : ℕ) (bv : ℕ → ℕ) : List ℕ :=
  (List.range nv).foldl
    (fun vm v => if bv v ≠ nv then vm.set (bv v) v else vm)
    (List.replicate nbv 0)

/-- The second facet loop (lines 140-159): for each facet marked
`boundary_facet`, record its parent index in `cell_map` (the
`current_cell` counter runs in facet-iteration order) and add the cell
with vertices renumbered through `boundary_vertices` and reoriented by
`reorder`. -/
def pass3 (kind : CellKind) (geom : ℕ → Pt) (bv : ℕ → ℕ) :
    List BFacet → ℕ → List ℕ × List (Except String (List ℕ))
  | [], _ => ([], [])
  | f :: fs, fidx =>
      if isBoundaryFacet f then
        (fidx :: (pass3 kind geom bv fs (fidx + 1)).1,
         reorder kind (f.vertices.map bv) f.vertices f.cellVertices geom
           :: (pass3 kind geom bv fs (fidx + 1)).2)
      else pass3 kind geom bv fs (fidx + 1)

/-- The observable result of `compute_boundary`: the two entity maps
(`boundary.entity_map(0)` and `boundary.entity_map(D-1)`), the boundary
cells handed to the mesh editor, and the two size counters. -/
structure BoundaryMeshModel where
  vertex_map : List ℕ
  cell_map : List ℕ
  bcells : List (Except String (List ℕ))
  num_boundary_vertices : ℕ
  num_boundary_cells : ℕ
deriving Repr

/-- `BoundaryComputation::compute_boundary(mesh, "exterior", boundary)`:
pass 1 fills `boundary_vertices` and the counters, the vertex loop builds
`vertex_map`, the second facet loop builds `cell_map` and the cells. -/
def computeBoundaryExt (kind : CellKind) (m : BMesh) (geom : ℕ → Pt) :
    BoundaryMeshModel :=
  ⟨pass2 m.numVertices
      (pass1 m.numVertices m.facets ((fun _ => m.numVertices), 0, 0)).2.1
      (pass1 m.numVertices m.facets ((fun _ => m.numVertices), 0, 0)).1,
   (pass3 kind geom (pass1 m.numVertices m.facets ((fun _ => m.numVertices), 0, 0)).1
      m.facets 0).1,
   (pass3 kind geom (pass1 m.numVertices m.facets ((fun _ => m.numVertices), 0, 0)).1
      m.facets 0).2,
   (pass1 m.numVertices m.facets ((fun _ => m.numVertices), 0, 0)).2.1,
   (pass1 m.numVertices m.facets ((fun _ => m.numVertices), 0, 0)).2.2⟩

/-- Specification side: append each vertex of a facet that has not been
encountered before. -/
def encFold (acc : List ℕ) (vs : List ℕ) : List ℕ :=
  vs.foldl (fun a v => if v ∈ a then a else a ++ [v]) acc

/-- Specification side: the parent vertices of the boundary listed "in
order of first encounter during facet iteration". -/
def vertexMapSpec (fs : List BFacet) : List ℕ :=
  fs.foldl (fun a f => if isBoundaryFacet f then encFold a f.vertices else a) []

/-- Specification side: the parent indices of the facets "incident to
exactly one (globally visible) cell", in facet-iteration order. -/
def cellMapSpec (fs : List BFacet) : List ℕ :=
  ((fs.enum).filter (fun p => isBoundaryFacet p.2)).map Prod.fst

/-- The pass-1 state `(boundary_vertices, num_boundary_vertices)` is
fully described by the list of boundary vertices in encounter order:
the counter is its length, and `boundary_vertices` maps members to
their position and everything else to the sentinel `nv`. -/
def BVInv (nv : ℕ) (L : List ℕ) (bv : ℕ → ℕ) (n : ℕ) : Prop :=
  n = L.length ∧ L.Nodup ∧ (∀ v ∈ L, v < nv) ∧
  ∀ v, bv v = if v ∈ L then L.indexOf v else nv

theorem nodup_bounded_length_le (L : List ℕ) (nv : ℕ)
    (h1 : L.Nodup) (h2 : ∀ v ∈ L, v < nv) : L.length ≤ nv := by
  have h3 : L.toFinset ⊆ Finset.range nv :=
    fun v hv => Finset.mem_range.mpr (h2 v (List.mem_toFinset.mp hv))
  have h4 := Finset.card_le_card h3
  rw [List.toFinset_card_of_nodup h1, Finset.card_range] at h4
  exact h4

theorem nodup_indexOf_getElem (L : List ℕ) (hnd : L.Nodup) (i : ℕ)
    (hi : i < L.length) : L.indexOf (L[i]) = i := by
  have hm : L[i] ∈ L := List.getElem_mem hi
  have h1 : L.indexOf (L[i]) < L.length := List.indexOf_lt_length.mpr hm
  have h2 : L[L.indexOf (L[i])] = L[i] := List.getElem_indexOf h1
  exact (hnd.getElem_inj_iff).mp h2

theorem assignVertices_inv (nv : ℕ) (vs : List ℕ) :
    ∀ (L : List ℕ) (bv : ℕ → ℕ) (n : ℕ),
    BVInv nv L bv n → (∀ v ∈ vs, v < nv) →
    BVInv nv (encFold L vs) (assignVertices nv vs (bv, n)).1
      (assignVertices nv vs (bv, n)).2 := by
  induction vs with
  | nil => exact fun L bv n hI _ => hI
  | cons v vs ih =>
    intro L bv n hI hb
    obtain ⟨hn, hnd, hlt, hbv⟩ := hI
    by_cases hm : v ∈ L
    · have hidx : L.indexOf v < L.length := List.indexOf_lt_length.mpr hm
      have hle : L.length ≤ nv := nodup_bounded_length_le L nv hnd hlt
      have htest : ¬ bv v = nv := by rw [hbv v, if_pos hm]; omega
      have hstep : assignVertices nv (v :: vs) (bv, n) = assignVertices nv vs (bv, n) := by
        simp only [assignVertices, if_neg htest]
      have henc : encFold L (v :: vs) = encFold L vs := by
        simp only [encFold, List.foldl_cons, if_pos hm]
      rw [hstep, henc]
      exact ih L bv n ⟨hn, hnd, hlt, hbv⟩ (fun w hw => hb w (List.mem_cons_of_mem v hw))
    · have htest : bv v = nv := by rw [hbv v, if_neg hm]
      have hstep : assignVertices nv (v :: vs) (bv, n)
          = assignVertices nv vs ((fun w => if w = v then n else bv w), n + 1) := by
        simp only [assignVertices, if_pos htest]
      have henc : encFold L (v :: vs) = encFold (L ++ [v]) vs := by
        simp only [encFold, List.foldl_cons, if_neg hm]
      rw [hstep, henc]
      apply ih (L ++ [v])
      · refine ⟨by simp [hn], ?_, ?_, ?_⟩
        · simp [List.nodup_append, hnd, hm]
        · intro w hw
          rcases List.mem_append.mp hw with h | h
          · exact hlt w h
          · rw [List.mem_singleton] at h
            rw [h]
            exact hb v (List.mem_cons_self v vs)
        · intro w
          by_cases hwv : w = v
          · subst hwv
            have h1 : (L ++ [w]).indexOf w = L.length := by
              rw [List.indexOf_append_of_not_mem hm]
              simp
            simp [h1, hn]
          · have h0 : (fun u => if u = v then n else bv u) w = bv w := by simp [hwv]
            rw [h0, hbv w]
            by_cases hwL : w ∈ L
            · rw [if_pos hwL, if_pos (List.mem_append.mpr (Or.inl hwL)),
                List.indexOf_append_of_mem hwL]
            · rw [if_neg hwL, if_neg (by simp [hwL, hwv])]
      · exact fun w hw => hb w (List.mem_cons_of_mem v hw)

theorem pass1_inv (nv : ℕ) (fs : List BFacet) :
    ∀ (L : List ℕ) (bv : ℕ → ℕ) (n c : ℕ),
    BVInv nv L bv n →
    (∀ f ∈ fs, ∀ v ∈ f.vertices, v < nv) →
    BVInv nv
      (fs.foldl (fun a f => if isBoundaryFacet f then encFold a f.vertices else a) L)
      (pass1 nv fs (bv, n, c)).1 (pass1 nv fs (bv, n, c)).2.1 ∧
    (pass1 nv fs (bv, n, c)).2.2
      = c + (fs.filter (fun f => isBoundaryFacet f)).length := by
  induction fs with
  | nil =>
    intro L bv n c hI _
    exact ⟨hI, by simp [pass1]⟩
  | cons f fs ih =>
    intro L bv n c hI hb
    by_cases hf : isBoundaryFacet f
    · have hstep : pass1 nv (f :: fs) (bv, n, c)
          = pass1 nv fs ((assignVertices nv f.vertices (bv, n)).1,
              (assignVertices nv f.vertices (bv, n)).2, c + 1) := by
        simp only [pass1, if_pos hf]
      have hfold : (f :: fs).foldl
            (fun a g => if isBoundaryFacet g then encFold a g.vertices else a) L
          = fs.foldl (fun a g => if isBoundaryFacet g then encFold a g.vertices else a)
              (encFold L f.vertices) := by
        simp only [List.foldl_cons, if_pos hf]
      have h2 := assignVertices_inv nv f.vertices L bv n hI
        (hb f (List.mem_cons_self f fs))
      have h3 := ih (encFold L f.vertices) _ _ (c + 1) h2
        (fun g hg => hb g (List.mem_cons_of_mem f hg))
      rw [hstep, hfold]
      refine ⟨h3.1, ?_⟩
      rw [h3.2]
      simp only [List.filter_cons, if_pos hf, List.length_cons]
      omega
    · have hstep : pass1 nv (f :: fs) (bv, n, c) = pass1 nv fs (bv, n, c) := by
        simp only [pass1, if_neg hf]
      have hfold : (f :: fs).foldl
            (fun a g => if isBoundaryFacet g then encFold a g.vertices else a) L
          = fs.foldl (fun a g => if isBoundaryFacet g then encFold a g.vertices else a) L := by
        simp only [List.foldl_cons, if_neg hf]
      have h3 := ih L bv n c hI (fun g hg => hb g (List.mem_cons_of_mem f hg))
      rw [hstep, hfold]
      refine ⟨h3.1, ?_⟩
      rw [h3.2]
      simp only [List.filter_cons, if_neg hf]

theorem pass2_fold (nv : ℕ) (L : List ℕ) (bv : ℕ → ℕ)
    (hbv : ∀ v, bv v = if v ∈ L then L.indexOf v else nv)
    (hnd : L.Nodup) (hlt : ∀ v ∈ L, v < nv) :
    ∀ (W acc : List ℕ), acc.length = L.length →
    (∀ i, i < L.length → acc.getD i 0 = L.getD i 0 ∨ L.getD i 0 ∈ W) →
    (W.foldl (fun vm v => if bv v ≠ nv then vm.set (bv v) v else vm) acc).length
      = L.length ∧
    ∀ i, i < L.length →
      (W.foldl (fun vm v => if bv v ≠ nv then vm.set (bv v) v else vm) acc).getD i 0
        = L.getD i 0 := by
  have hle : L.length ≤ nv := nodup_bounded_length_le L nv hnd hlt
  intro W
  induction W with
  | nil =>
    intro acc hlen hpre
    refine ⟨hlen, fun i hi => ?_⟩
    rcases hpre i hi with h | h
    · simpa using h
    · exact absurd h (List.not_mem_nil _)
  | cons w W ih =>
    intro acc hlen hpre
    simp only [List.foldl_cons]
    apply ih
    · split_ifs <;> simp [hlen]
    · intro i hi
      have hwrite : ∀ hwm : w ∈ L, L.indexOf w = i →
          (if bv w ≠ nv then acc.set (bv w) w else acc).getD i 0 = L.getD i 0 := by
        intro hwm hidx
        have h1 : L.indexOf w < L.length := List.indexOf_lt_length.mpr hwm
        have h2 : bv w = i := by rw [hbv w, if_pos hwm, hidx]
        have h3 : ¬ bv w = nv := by rw [h2, ← hidx]; omega
        rw [if_pos h3, h2]
        have h4 : i < acc.length := by omega
        have h5 : (acc.set i w).getD i 0 = w := by
          rw [List.getD_eq_getElem (acc.set i w) 0 (by simp [h4])]
          simp
        rw [h5, ← hidx]
        rw [List.getD_eq_getElem L 0 h1]
        exact (List.getElem_indexOf h1).symm
      rcases hpre i hi with h | h
      · left
        split_ifs with hw
        · by_cases hiw : bv w = i
          · have hwm : w ∈ L := by
              by_contra hx
              rw [hbv w, if_neg hx] at hw
              exact hw rfl
            have hidx : L.indexOf w = i := by
              rw [hbv w, if_pos hwm] at hiw
              exact hiw
            have := hwrite hwm hidx
            rw [if_pos hw] at this
            exact this
          · have h4 : (acc.set (bv w) w).getD i 0 = acc.getD i 0 := by
              have hia : i < acc.length := by omega
              rw [List.getD_eq_getElem (acc.set (bv w) w) 0 (by simp [hia]),
                List.getD_eq_getElem acc 0 hia]
              exact List.getElem_set_ne hiw _
            rw [h4]
            exact h
        · exact h
      · rcases List.mem_cons.mp h with hw | hW
        · left
          have hgd : L.getD i 0 = L[i] := List.getD_eq_getElem L 0 hi
          have hwm : w ∈ L := by
            rw [← hw, hgd]
            exact List.getElem_mem hi
          have hidx : L.indexOf w = i := by
            rw [← hw, hgd]
            exact nodup_indexOf_getElem L hnd i hi
          exact hwrite hwm hidx
        · right
          exact hW

theorem pass2_eq (nv : ℕ) (L : List ℕ) (bv : ℕ → ℕ)
    (hbv : ∀ v, bv v = if v ∈ L then L.indexOf v else nv)
    (hnd : L.Nodup) (hlt : ∀ v ∈ L, v < nv) :
    pass2 nv L.length bv = L := by
  have h := pass2_fold nv L bv hbv hnd hlt (List.range nv) (List.replicate L.length 0)
    (by simp)
    (fun i hi => Or.inr (by
      rw [List.getD_eq_getElem L 0 hi]
      exact List.mem_range.mpr (hlt _ (List.getElem_mem hi))))
  apply List.ext_getElem h.1
  intro i h1 h2
  have h3 := h.2 i h2
  rw [List.getD_eq_getElem _ 0 h1, List.getD_eq_getElem L 0 h2] at h3
  exact h3

theorem pass3_eq (kind : CellKind) (geom : ℕ → Pt) (bv : ℕ → ℕ) (fs : List BFacet) :
    ∀ fidx : ℕ,
    (pass3 kind geom bv fs fidx).1
      = ((fs.enumFrom fidx).filter (fun p => isBoundaryFacet p.2)).map Prod.fst ∧
    (pass3 kind geom bv fs fidx).2
      = (fs.filter (fun f => isBoundaryFacet f)).map
          (fun f => reorder kind (f.vertices.map bv) f.vertices f.cellVertices geom) := by
  induction fs with
  | nil => intro fidx; simp [pass3]
  | cons f fs ih =>
    intro fidx
    by_cases hf : isBoundaryFacet f <;>
      simp [pass3, hf, List.enumFrom_cons, List.filter_cons, ih (fidx + 1)]

/-- C5.  For every mesh and mode "exterior", `compute_boundary` produces
a boundary mesh whose cells are exactly the parent facets incident to
exactly one globally visible cell (in facet-iteration order, renumbered
through `boundary_vertices` and reoriented by `reorder`), together with
two dense index maps starting at 0: `vertex_map` lists the parent
vertices in order of first encounter during facet iteration, and
`cell_map` lists the parent facet indices of the boundary facets in
facet-iteration order; the counters equal the lengths of the two maps. -/
theorem computeBoundary_spec (kind : CellKind) (m : BMesh) (geom : ℕ → Pt)
    (hwf : ∀ f ∈ m.facets, ∀ v ∈ f.vertices, v < m.numVertices) :
    (computeBoundaryExt kind m geom).cell_map = cellMapSpec m.facets ∧
    (computeBoundaryExt kind m geom).bcells
      = (m.facets.filter (fun f => isBoundaryFacet f)).map
          (fun f => reorder kind
            (f.vertices.map
              (pass1 m.numVertices m.facets ((fun _ => m.numVertices), 0, 0)).1)
            f.vertices f.cellVertices geom) ∧
    (∀ v, (pass1 m.numVertices m.facets ((fun _ => m.numVertices), 0, 0)).1 v
        = if v ∈ vertexMapSpec m.facets then (vertexMapSpec m.facets).indexOf v
          else m.numVertices) ∧
    (computeBoundaryExt kind m geom).vertex_map = vertexMapSpec m.facets ∧
    (computeBoundaryExt kind m geom).num_boundary_vertices
      = (vertexMapSpec m.facets).length ∧
    (computeBoundaryExt kind m geom).num_boundary_cells
      = (m.facets.filter (fun f => isBoundaryFacet f)).length := by
  have hI0 : BVInv m.numVertices [] (fun _ => m.numVertices) 0 :=
    ⟨rfl, List.nodup_nil, by simp, fun v => by simp⟩
  obtain ⟨⟨hn, hnd, hlt, hbv⟩, hc⟩ :=
    pass1_inv m.numVertices m.facets [] (fun _ => m.numVertices) 0 0 hI0 hwf
  have hn' : (pass1 m.numVertices m.facets ((fun _ => m.numVertices), 0, 0)).2.1
      = (vertexMapSpec m.facets).length := hn
  have hnd' : (vertexMapSpec m.facets).Nodup := hnd
  have hlt' : ∀ v ∈ vertexMapSpec m.facets, v < m.numVertices := hlt
  have hbv' : ∀ v, (pass1 m.numVertices m.facets ((fun _ => m.numVertices), 0, 0)).1 v
      = if v ∈ vertexMapSpec m.facets then (vertexMapSpec m.facets).indexOf v
        else m.numVertices := hbv
  have hp3 := pass3_eq kind geom
    (pass1 m.numVertices m.facets ((fun _ => m.numVertices), 0, 0)).1 m.facets 0
  simp only [computeBoundaryExt]
  refine ⟨?_, hp3.2, hbv', ?_, hn', by rw [hc]; omega⟩
  · rw [hp3.1]
    rfl
  · rw [hn']
    exact pass2_eq m.numVertices (vertexMapSpec m.facets) _ hbv' hnd' hlt'

theorem computeBoundary_spec_witness :
    (computeBoundaryExt .triangle
        ⟨3, [⟨[0, 1], 1, 1, [0, 1, 2]⟩, ⟨[1, 2], 2, 2, [0, 1, 2]⟩,
             ⟨[2, 0], 1, 1, [0, 1, 2]⟩]⟩
        (fun i => if i = 0 then ⟨0, 0, 0⟩ else if i = 1 then ⟨1, 0, 0⟩ else ⟨0, 1, 0⟩)).cell_map
      = cellMapSpec [⟨[0, 1], 1, 1, [0, 1, 2]⟩, ⟨[1, 2], 2, 2, [0, 1, 2]⟩,
             ⟨[2, 0], 1, 1, [0, 1, 2]⟩] ∧
    (computeBoundaryExt .triangle
        ⟨3, [⟨[0, 1], 1, 1, [0, 1, 2]⟩, ⟨[1, 2], 2, 2, [0, 1, 2]⟩,
             ⟨[2, 0], 1, 1, [0, 1, 2]⟩]⟩
        (fun i => if i = 0 then ⟨0, 0, 0⟩ else if i = 1 then ⟨1, 0, 0⟩ else ⟨0, 1, 0⟩)).vertex_map
      = vertexMapSpec [⟨[0, 1], 1, 1, [0, 1, 2]⟩, ⟨[1, 2], 2, 2, [0, 1, 2]⟩,
             ⟨[2, 0], 1, 1, [0, 1, 2]⟩] ∧
    (computeBoundaryExt .triangle
        ⟨3, [⟨[0, 1], 1, 1, [0, 1, 2]⟩, ⟨[1, 2], 2, 2, [0, 1, 2]⟩,
             ⟨[2, 0], 1, 1, [0, 1, 2]⟩]⟩
        (fun i => if i = 0 then ⟨0, 0, 0⟩ else if i = 1 then ⟨1, 0, 0⟩ else ⟨0, 1, 0⟩)).num_boundary_vertices
      = (vertexMapSpec [⟨[0, 1], 1, 1, [0, 1, 2]⟩, ⟨[1, 2], 2, 2, [0, 1, 2]⟩,
             ⟨[2, 0], 1, 1, [0, 1, 2]⟩]).length ∧
    (computeBoundaryExt .triangle
        ⟨3, [⟨[0, 1], 1, 1, [0, 1, 2]⟩, ⟨[1, 2], 2, 2, [0, 1, 2]⟩,
             ⟨[2, 0], 1, 1, [0, 1, 2]⟩]⟩
        (fun i => if i = 0 then ⟨0, 0, 0⟩ else if i = 1 then ⟨1, 0, 0⟩ else ⟨0, 1, 0⟩)).num_boundary_cells
      = (([⟨[0, 1], 1, 1, [0, 1, 2]⟩, ⟨[1, 2], 2, 2, [0, 1, 2]⟩,
             ⟨[2, 0], 1, 1, [0, 1, 2]⟩] : List BFacet).filter
          (fun f => isBoundaryFacet f)).length := by
  have h := computeBoundary_spec .triangle
    ⟨3, [⟨[0, 1], 1, 1, [0, 1, 2]⟩, ⟨[1, 2], 2, 2, [0, 1, 2]⟩,
         ⟨[2, 0], 1, 1, [0, 1, 2]⟩]⟩
    (fun i => if i = 0 then ⟨0, 0, 0⟩ else if i = 1 then ⟨1, 0, 0⟩ else ⟨0, 1, 0⟩)
    (by decide)
  exact ⟨h.1, h.2.2.2.1, h.2.2.2.2.1, h.2.2.2.2.2⟩

end Dolfin